import Mathlib

/-!
# go-tcp-proxy: the command `cmd/tcp-proxy/main.go`

A shallow embedding of `createMatcher`, `createReplacer` and the listener loop of
`main`, together with the parts of the Go standard library they call
(`strings.Split`, `utf8.DecodeRune`, and the `FindAll` / `ReplaceAll` loops of
package `regexp`).

Go strings and byte slices are lists of bytes.  The two process-wide counters
`matchid` and `connid` are `uint64`; they are natural numbers below `2 ^ 64` and
every increment is reduced modulo `2 ^ 64`.  Closures are records of the variables
they capture, with a `call` function.  A call of a logging function is recorded with
its arguments, unformatted.

The matching engine of package `regexp` is a parameter (`RegexpPkg`): the loops of
`FindAll` and `ReplaceAll` are written over any engine that reports matches inside
the text and reads it rune by rune.  The scenarios are evaluated with an executable
backtracking engine for a fragment of the syntax (`goRegexp`).  Package `net` is a
parameter too (`Net`), and the loop of `main` runs over the list of the results of
`AcceptTCP`.  The function `init` (log rotation) and the parsing of the flags are
outside the embedding: `main` starts from the parsed flags.
-/

namespace TcpProxy

/-! ## Bytes and runes -/

/-- A Go `[]byte` (and a Go `string`, which is a read-only byte sequence). -/
abbrev Bytes := List UInt8

/-- The conversion `[]byte(s)` of a string constant: its UTF-8 encoding. -/
def bytes (s : String) : Bytes := s.toUTF8.data.toList

/-- The slice expression `b[lo:hi]`. -/
def slice (b : Bytes) (lo hi : Nat) : Bytes := (b.drop lo).take (hi - lo)

/-- The rune `utf8.RuneError`, U+FFFD. -/
def RuneError : Nat := 0xFFFD

/-- The test `locb <= c && c <= hicb` of package `utf8`: `c` is a continuation byte. -/
def isCont (c : UInt8) : Bool := 0x80 ≤ c.toNat && c.toNat ≤ 0xBF

/-- The function `utf8.DecodeRune`: the first rune of `p` and its width in bytes.
The result is `(RuneError, 0)` for the empty slice and `(RuneError, 1)` for an
invalid or truncated encoding. -/
def DecodeRune (p : Bytes) : Nat × Nat :=
  match p with
  | [] => (RuneError, 0)
  | p0 :: rest =>
    let c0 := p0.toNat
    if c0 < 0x80 then (c0, 1)
    else if c0 < 0xC2 then (RuneError, 1)
    else if c0 < 0xE0 then
      match rest with
      | b1 :: _ =>
        if isCont b1 then ((c0 % 0x20) * 0x40 + b1.toNat % 0x40, 2) else (RuneError, 1)
      | _ => (RuneError, 1)
    else if c0 < 0xF0 then
      match rest with
      | b1 :: b2 :: _ =>
        let lo1 := if c0 = 0xE0 then 0xA0 else 0x80
        let hi1 := if c0 = 0xED then 0x9F else 0xBF
        if lo1 ≤ b1.toNat && b1.toNat ≤ hi1 && isCont b2 then
          ((c0 % 0x10) * 0x1000 + (b1.toNat % 0x40) * 0x40 + b2.toNat % 0x40, 3)
        else (RuneError, 1)
      | _ => (RuneError, 1)
    else if c0 < 0xF5 then
      match rest with
      | b1 :: b2 :: b3 :: _ =>
        let lo1 := if c0 = 0xF0 then 0x90 else 0x80
        let hi1 := if c0 = 0xF4 then 0x8F else 0xBF
        if lo1 ≤ b1.toNat && b1.toNat ≤ hi1 && isCont b2 && isCont b3 then
          ((c0 % 0x08) * 0x40000 + (b1.toNat % 0x40) * 0x1000 + (b2.toNat % 0x40) * 0x40
            + b3.toNat % 0x40, 4)
        else (RuneError, 1)
      | _ => (RuneError, 1)
    else (RuneError, 1)

/-- The method `inputBytes.step` of package `regexp`: the rune at `pos` and its
width, or width `0` at the end of the text. -/
def step (b : Bytes) (pos : Nat) : Nat × Nat :=
  if pos < b.length then DecodeRune (b.drop pos) else (RuneError, 0)

/-! ## Package `strings` -/

/-- The loop of `strings.Split(s, sep)` for a non-empty separator: cut `s` at every
occurrence of `sep`, scanning from the left.  `skip` counts the bytes of a separator
that is being stepped over and `cur` holds the current piece, reversed. -/
def splitLoop (sep : Bytes) : Nat → Bytes → Bytes → List Bytes
  | _, cur, [] => [cur.reverse]
  | skip + 1, cur, _ :: rest => splitLoop sep skip cur rest
  | 0, cur, c :: rest =>
    if sep.isPrefixOf (c :: rest) then cur.reverse :: splitLoop sep (sep.length - 1) [] rest
    else splitLoop sep 0 (c :: cur) rest

/-- The function `strings.Split(s, sep)`, for the non-empty separators the program
passes. -/
def Split (s sep : Bytes) : List Bytes := splitLoop sep 0 [] s

/-! ## Package `regexp` -/

/-- The result of one execution of the matching engine (the `[]int` of Go's
`doExecute`): the bounds of the leftmost match and of each capturing group, a group
that took no part in the match being `none` (Go: `-1`). -/
structure MatchIdx where
  lo : Nat
  hi : Nat
  groups : List (Option (Nat × Nat))
deriving DecidableEq, Repr

/-- The matching engine of package `regexp` and the Unicode tables of package
`unicode`, which are not part of this repository.  `doExecute re b pos` is the
leftmost match of `re` in `b` that starts at or after `pos`.  The two laws say that a
match lies inside the text after `pos`, and that the engine reads the text rune by
rune. -/
structure RegexpPkg where
  Regexp : Type
  Compile : Bytes → Except String Regexp
  source : Regexp → Bytes
  numSubexp : Regexp → Nat
  subexpNames : Regexp → List Bytes
  doExecute : Regexp → Bytes → Nat → Option MatchIdx
  IsLetter : Nat → Bool
  IsDigit : Nat → Bool
  exec_bounds : ∀ re b pos m, doExecute re b pos = some m →
    pos ≤ m.lo ∧ m.lo ≤ m.hi ∧ m.hi ≤ b.length
  exec_rune : ∀ re b pos m, doExecute re b pos = some m →
    m.hi ≠ pos → pos + (step b pos).2 ≤ m.hi

/-- The position at which `allMatches` resumes after a match ending at `hi`. -/
def nextPos (b : Bytes) (pos hi : Nat) : Nat :=
  if hi = pos then
    if 0 < (step b pos).2 then pos + (step b pos).2 else b.length + 1
  else hi

/-- The loop of `Regexp.allMatches`: the matches delivered, in order.  `i` counts the
matches delivered so far and `n` bounds them; an empty match right after the
previous match is not delivered. -/
def allMatchesLoop (E : RegexpPkg) (re : E.Regexp) (b : Bytes) (n : Nat)
    (pos i : Nat) (prevMatchEnd : Int) : List MatchIdx :=
  if i < n ∧ pos ≤ b.length then
    match hm : E.doExecute re b pos with
    | none => []
    | some m =>
      let accept := !(m.hi == pos && (m.lo : Int) == prevMatchEnd)
      if accept then
        m :: allMatchesLoop E re b n (nextPos b pos m.hi) (i + 1) m.hi
      else
        allMatchesLoop E re b n (nextPos b pos m.hi) i m.hi
  else []
termination_by b.length + 1 - pos
decreasing_by
  all_goals
    have hb := E.exec_bounds re b pos m hm
    simp only [nextPos]
    split <;> (try split) <;> omega

/-- The method `Regexp.allMatches` with the bound `n` (a negative `n` stands for
`len(b) + 1`, as in `FindAll`). -/
def allMatches (E : RegexpPkg) (re : E.Regexp) (b : Bytes) (n : Int) : List MatchIdx :=
  allMatchesLoop E re b (if n < 0 then b.length + 1 else n.toNat) 0 0 (-1)

/-- The method `Regexp.FindAll(b, n)`: the text of the successive matches. -/
def FindAll (E : RegexpPkg) (re : E.Regexp) (b : Bytes) (n : Int) : List Bytes :=
  (allMatches E re b n).map (fun m => slice b m.lo m.hi)

/-- The capture slot `num` of a match, as indexed by `match[2*num]` and
`match[2*num+1]`: slot `0` is the whole match. -/
def MatchIdx.slot (m : MatchIdx) (num : Nat) : Option (Nat × Nat) :=
  match num with
  | 0 => some (m.lo, m.hi)
  | k + 1 => (m.groups.get? k).join

/-- The first `nmatch` integers of a match (`nmatch` is even and at least `2`). -/
def MatchIdx.truncate (m : MatchIdx) (nmatch : Nat) : MatchIdx :=
  { m with groups := m.groups.take (nmatch / 2 - 1) }

/-- The scanning loop of `extract`: the length in bytes of the longest run of
letters, digits and underscores at the start of the text.  `skip` counts the bytes
still to step over of a rune that has been accepted. -/
def nameEnd (E : RegexpPkg) : Nat → Bytes → Nat
  | _, [] => 0
  | skip + 1, _ :: rest => 1 + nameEnd E skip rest
  | 0, c :: rest =>
    let r := (DecodeRune (c :: rest)).1
    if !E.IsLetter r && !E.IsDigit r && r != 0x5F then 0
    else 1 + nameEnd E ((DecodeRune (c :: rest)).2 - 1) rest

/-- The number loop of `extract`: the value of `name` read as a decimal number, or
`none` (Go: `-1`) when it is not one or is too large. -/
def parseNum : Bytes → Nat → Option Nat
  | [], num => some num
  | c :: rest, num =>
    if c.toNat < 0x30 || 0x39 < c.toNat || num ≥ 100000000 then none
    else parseNum rest (num * 10 + (c.toNat - 0x30))

/-- The function `extract` of package `regexp`: the name, its number and the rest
of a template after a `$`, reading a leading `name` or `{name}`. -/
def extract (E : RegexpPkg) (str : Bytes) : Option (Bytes × Option Nat × Bytes) :=
  match str with
  | [] => none
  | c0 :: tl =>
    let brace := c0 == 0x7B
    let str1 := if brace then tl else str
    let i := nameEnd E 0 str1
    if i = 0 then none
    else
      let name := str1.take i
      if brace && (i ≥ str1.length || str1.get? i != some 0x7D) then none
      else
        let j := if brace then i + 1 else i
        let num := parseNum name 0
        let num1 := if name.head? == some 0x30 && name.length > 1 then none else num
        some (name, num1, str1.drop j)

/-- The search through `re.subexpNames` in `expand`: the text of the first group
called `name` that took part in the match. -/
def expandNamed (bsrc : Bytes) (m : MatchIdx) (name : Bytes) : List Bytes → Nat → Bytes
  | [], _ => []
  | namei :: rest, i =>
    match (if name = namei then m.slot i else none) with
    | some (lo, hi) => slice bsrc lo hi
    | none => expandNamed bsrc m name rest (i + 1)

/-- The text that `expand` puts in place of `$name` or `${name}`: the group with
that number, or the first group with that name, and nothing when there is none. -/
def expandVar (E : RegexpPkg) (re : E.Regexp) (bsrc : Bytes) (m : MatchIdx)
    (name : Bytes) (num : Option Nat) : Bytes :=
  match num with
  | some k =>
    match m.slot k with
    | some (lo, hi) => slice bsrc lo hi
    | none => []
  | none => expandNamed bsrc m name (E.subexpNames re) 0

/-- The loop of `Regexp.expand`, as the text it appends to `dst`: the template with
each `$name` and `${name}` replaced by the text of that group, `$$` by `$`, and a `$`
that is followed by no name kept.  `skip` counts the bytes still to step over of a
name that has been replaced. -/
def expandLoop (E : RegexpPkg) (re : E.Regexp) (bsrc : Bytes) (m : MatchIdx) :
    Nat → Bytes → Bytes
  | _, [] => []
  | skip + 1, _ :: rest => expandLoop E re bsrc m skip rest
  | 0, c :: after =>
    if c ≠ 0x24 then c :: expandLoop E re bsrc m 0 after
    else
      match after with
      | [] => [0x24]
      | c1 :: rest =>
        if c1 = 0x24 then 0x24 :: expandLoop E re bsrc m 0 rest
        else
          match extract E (c1 :: rest) with
          | none => 0x24 :: c1 :: expandLoop E re bsrc m 0 rest
          | some (name, num, rest1) =>
            expandVar E re bsrc m name num
              ++ expandLoop E re bsrc m ((c1 :: rest).length - rest1.length - 1) rest

/-- The method `Regexp.expand(dst, template, src, match)`. -/
def expand (E : RegexpPkg) (re : E.Regexp) (dst template bsrc : Bytes) (m : MatchIdx) :
    Bytes :=
  dst ++ expandLoop E re bsrc m 0 template

/-- The position at which `replaceAll` resumes after a match ending at `hi`:
past the match, and always at least one character further. -/
def advance (bsrc : Bytes) (searchPos hi : Nat) : Nat :=
  let width := (DecodeRune (bsrc.drop searchPos)).2
  if searchPos + width > hi then searchPos + width
  else if searchPos + 1 > hi then searchPos + 1
  else hi

set_option linter.unusedVariables false in
/-- The loop of `Regexp.replaceAll`: the text before each match is copied and the
callback `repl` appends the replacement, except for an empty match right after the
previous match; the text after the last match is copied at the end. -/
def replaceAllLoop (E : RegexpPkg) (re : E.Regexp) (bsrc : Bytes) (nmatch : Nat)
    (repl : Bytes → MatchIdx → Bytes) (lastMatchEnd searchPos : Nat) (buf : Bytes) : Bytes :=
  if searchPos ≤ bsrc.length then
    match hm : E.doExecute re bsrc searchPos with
    | none => buf ++ bsrc.drop lastMatchEnd
    | some m =>
      let a := m.truncate nmatch
      let buf1 := buf ++ slice bsrc lastMatchEnd a.lo
      let buf2 := if a.hi > lastMatchEnd ∨ a.lo = 0 then repl buf1 a else buf1
      replaceAllLoop E re bsrc nmatch repl a.hi (advance bsrc searchPos a.hi) buf2
  else buf ++ bsrc.drop lastMatchEnd
termination_by bsrc.length + 1 - searchPos
decreasing_by
  have hb := E.exec_bounds re bsrc searchPos m hm
  simp only [advance, MatchIdx.truncate]
  split <;> (try split) <;> omega

/-- The method `Regexp.replaceAll(bsrc, "", nmatch, repl)`. -/
def replaceAll (E : RegexpPkg) (re : E.Regexp) (bsrc : Bytes) (nmatch : Nat)
    (repl : Bytes → MatchIdx → Bytes) : Bytes :=
  replaceAllLoop E re bsrc (min nmatch (2 * (E.numSubexp re + 1))) repl 0 0 []

/-- The method `Regexp.ReplaceAll(src, repl)`: inside `repl`, `$` signs are
interpreted as in `expand`. -/
def ReplaceAll (E : RegexpPkg) (re : E.Regexp) (src repl : Bytes) : Bytes :=
  let n := if (0x24 : UInt8) ∈ repl then 2 * (E.numSubexp re + 1) else 2
  replaceAll E re src n (fun dst m => expand E re dst repl src m)

/-! ## The program: globals and logging -/

/-- The largest value of a `uint64` plus one. -/
def uint64Size : Nat := 2 ^ 64

/-- An argument of a logging or formatting call. -/
inductive Arg where
  | str (s : String)
  | text (b : Bytes)
  | uint (n : Nat)
deriving DecidableEq, Repr

/-- The logging functions of package `logrus` that the program calls. -/
inductive LogFn where
  | Info
  | Infof
  | Warnf
deriving DecidableEq, Repr

/-- One call of a logging function: the function and its arguments, in order. -/
structure LogEntry where
  fn : LogFn
  args : List Arg
deriving DecidableEq, Repr

/-- The package-level variables `matchid` and `connid` (both `uint64`, both `0` at
start), and the log written so far. -/
structure Globals where
  matchid : Nat
  connid : Nat
  log : List LogEntry
deriving DecidableEq, Repr

/-- The state of the globals when `main` starts. -/
def Globals.init : Globals := { matchid := 0, connid := 0, log := [] }

/-- Append one entry to the log. -/
def Globals.emit (g : Globals) (fn : LogFn) (args : List Arg) : Globals :=
  { g with log := g.log ++ [{ fn := fn, args := args }] }

/-! ## `createMatcher` -/

/-- The closure returned by `createMatcher`: it captures the compiled pattern `re`. -/
structure Matcher (E : RegexpPkg) where
  re : E.Regexp

/-- The body of the loop `for _, m := range ms` in the matcher: `matchid++`, then
`log.Info("Match #%d: %s", matchid, string(m))`. -/
def matchStep (g : Globals) (m : Bytes) : Globals :=
  let g1 := { g with matchid := (g.matchid + 1) % uint64Size }
  g1.emit LogFn.Info [Arg.str "Match #%d: %s", Arg.uint g1.matchid, Arg.text m]

/-- A call `matcher(input)` of the closure returned by `createMatcher`. -/
def Matcher.call {E : RegexpPkg} (f : Matcher E) (input : Bytes) (g : Globals) : Globals :=
  let ms := FindAll E f.re input (-1)
  ms.foldl matchStep g

/-- The function `createMatcher(match)`: the matcher, or `none` for Go's `nil`,
and the globals after the logging it does. -/
def createMatcher (E : RegexpPkg) (pattern : Bytes) (g : Globals) :
    Option (Matcher E) × Globals :=
  if pattern = [] then (none, g)
  else
    match E.Compile pattern with
    | Except.error err =>
      (none, g.emit LogFn.Warnf [Arg.str "Invalid match regex: %s", Arg.str err])
    | Except.ok re =>
      (some { re := re }, g.emit LogFn.Info [Arg.str "Matching %s", Arg.text (E.source re)])

/-! ## `createReplacer` -/

/-- The closure returned by `createReplacer`: it captures the compiled pattern `re`
and the replacement `repl`. -/
structure Replacer (E : RegexpPkg) where
  re : E.Regexp
  repl : Bytes

/-- A call `replacer(input)` of the closure returned by `createReplacer`. -/
def Replacer.call {E : RegexpPkg} (f : Replacer E) (input : Bytes) : Bytes :=
  ReplaceAll E f.re input f.repl

/-- The separator `"~"` of a replace option. -/
def tilde : UInt8 := 0x7E

/-- The function `createReplacer(replace)`: the replacer, or `none` for Go's `nil`,
and the globals after the logging it does. -/
def createReplacer (E : RegexpPkg) (replace : Bytes) (g : Globals) :
    Option (Replacer E) × Globals :=
  if replace = [] then (none, g)
  else
    let parts := Split replace [tilde]
    if parts.length ≠ 2 then (none, g.emit LogFn.Warnf [Arg.str "Invalid replace option"])
    else
      match E.Compile (parts.getD 0 []) with
      | Except.error err =>
        (none, g.emit LogFn.Warnf [Arg.str "Invalid replace regex: %s", Arg.str err])
      | Except.ok re =>
        let repl := parts.getD 1 []
        (some { re := re, repl := repl },
          g.emit LogFn.Info [Arg.str "Replacing %s with %s", Arg.text (E.source re), Arg.text repl])

/-! ## `main` -/

/-- The package-level variable `version`. -/
def version : String := "0.0.0-src"

/-- The command line flags after `flag.Parse()`; `match_` is the flag `-match`. -/
structure Flags where
  localAddr : String
  remoteAddr : String
  verbose : Bool
  veryverbose : Bool
  nagles : Bool
  hex : Bool
  colors : Bool
  unwrapTLS : Bool
  match_ : Bytes
  replace : Bytes

/-- A resolved address, `*net.TCPAddr`. -/
structure TCPAddr where
  addr : String
deriving DecidableEq, Repr

/-- An accepted connection, `*net.TCPConn`; `remote` is what
`conn.RemoteAddr().String()` returns. -/
structure TCPConn where
  remote : String
deriving DecidableEq, Repr

/-- What package `net` answers to the calls `main` makes before its loop. -/
structure Net where
  ResolveTCPAddr : String → Except String TCPAddr
  ListenTCP : TCPAddr → Except String Unit

/-- A call of `fmt.Sprintf`: the format and its arguments, in order. -/
structure Formatted where
  format : String
  args : List Arg
deriving DecidableEq, Repr

/-- Modelled from the spec: the type `ColorLogger` of package `proxy`, whose
declaration is not among the sources; these are the fields `main` sets. -/
structure ColorLogger where
  Verbose : Bool
  VeryVerbose : Bool
  Prefix : Formatted
  Color : Bool
deriving DecidableEq, Repr

/-- Modelled from the spec: the type `Proxy` of package `proxy` (the Connection of
the specification), whose declaration is not among the sources; these are the
arguments of its constructors and the fields `main` sets. -/
structure Proxy (E : RegexpPkg) where
  lconn : TCPConn
  laddr : TCPAddr
  raddr : TCPAddr
  tlsUnwrapp : Bool
  tlsAddress : String
  Matcher : Option (Matcher E)
  Replacer : Option (Replacer E)
  Nagles : Bool
  OutputHex : Bool
  Log : Option ColorLogger

/-- Modelled from the spec: the constructor `proxy.New(conn, laddr, raddr)`, which
is not among the sources. -/
def Proxy.New (E : RegexpPkg) (conn : TCPConn) (laddr raddr : TCPAddr) : Proxy E :=
  { lconn := conn, laddr := laddr, raddr := raddr, tlsUnwrapp := false, tlsAddress := "",
    Matcher := none, Replacer := none, Nagles := false, OutputHex := false, Log := none }

/-- Modelled from the spec: the constructor
`proxy.NewTLSUnwrapped(conn, laddr, raddr, addr)`, which is not among the sources. -/
def Proxy.NewTLSUnwrapped (E : RegexpPkg) (conn : TCPConn) (laddr raddr : TCPAddr)
    (addr : String) : Proxy E :=
  { Proxy.New E conn laddr raddr with tlsUnwrapp := true, tlsAddress := addr }

/-- Whether the process is still in `main` or has called `os.Exit`. -/
inductive Status where
  | serving
  | exited (code : Nat)
deriving DecidableEq, Repr

/-- The process as `main` leaves it: its status, the globals, the number of calls of
`listener.AcceptTCP` made, and the proxies started with `go p.Start()`, oldest
first. -/
structure Process (E : RegexpPkg) where
  status : Status
  globals : Globals
  acceptCalls : Nat
  spawned : List (Proxy E)

/-- One turn of the loop `for { ... }` of `main`, for one result of
`listener.AcceptTCP()`.  `fl` holds the flags as they are when the loop starts. -/
def acceptStep (E : RegexpPkg) (fl : Flags) (laddr raddr : TCPAddr)
    (matcher : Option (Matcher E)) (replacer : Option (Replacer E))
    (s : Process E) (ev : Except String TCPConn) : Process E :=
  match ev with
  | Except.error err =>
    { s with
      globals := s.globals.emit LogFn.Warnf
        [Arg.str "Failed to accept connection '%s'", Arg.str err]
      acceptCalls := s.acceptCalls + 1 }
  | Except.ok conn =>
    let g1 : Globals := { s.globals with connid := (s.globals.connid + 1) % uint64Size }
    let pg : Proxy E × Globals :=
      if fl.unwrapTLS then
        (Proxy.NewTLSUnwrapped E conn laddr raddr fl.remoteAddr,
          g1.emit LogFn.Info [Arg.str "Unwrapping TLS"])
      else (Proxy.New E conn laddr raddr, g1)
    let p : Proxy E :=
      { pg.1 with
        Matcher := matcher
        Replacer := replacer
        Nagles := fl.nagles
        OutputHex := fl.hex
        Log := some
          { Verbose := fl.verbose
            VeryVerbose := fl.veryverbose
            Prefix :=
              { format := "Connection #%s-%03d "
                args := [Arg.str conn.remote, Arg.uint g1.connid] }
            Color := fl.colors } }
    { s with globals := pg.2, acceptCalls := s.acceptCalls + 1, spawned := s.spawned ++ [p] }

/-- The loop `for { ... }` of `main` over the results of the successive calls of
`listener.AcceptTCP()`. -/
def acceptLoop (E : RegexpPkg) (fl : Flags) (laddr raddr : TCPAddr)
    (matcher : Option (Matcher E)) (replacer : Option (Replacer E))
    (s : Process E) (accepts : List (Except String TCPConn)) : Process E :=
  accepts.foldl (acceptStep E fl laddr raddr matcher replacer) s

/-- The process at a call of `os.Exit(code)`. -/
def exitWith (E : RegexpPkg) (g : Globals) (code : Nat) : Process E :=
  { status := Status.exited code, globals := g, acceptCalls := 0, spawned := [] }

/-- The function `main`, run against the answers of package `net` and the results
`accepts` of the calls of `listener.AcceptTCP()` made so far. -/
def main (E : RegexpPkg) (net : Net) (fl : Flags) (accepts : List (Except String TCPConn)) :
    Process E :=
  let g0 := Globals.init.emit LogFn.Infof
    [Arg.str "go-tcp-proxy (%s) proxing from %v to %v ", Arg.str version,
      Arg.str fl.localAddr, Arg.str fl.remoteAddr]
  match net.ResolveTCPAddr fl.localAddr with
  | Except.error err =>
    exitWith E (g0.emit LogFn.Warnf [Arg.str "Failed to resolve local address: %s", Arg.str err]) 1
  | Except.ok laddr =>
    match net.ResolveTCPAddr fl.remoteAddr with
    | Except.error err =>
      exitWith E
        (g0.emit LogFn.Warnf [Arg.str "Failed to resolve remote address: %s", Arg.str err]) 1
    | Except.ok raddr =>
      match net.ListenTCP laddr with
      | Except.error err =>
        exitWith E
          (g0.emit LogFn.Warnf [Arg.str "Failed to open local port to listen: %s", Arg.str err]) 1
      | Except.ok _ =>
        let mg := createMatcher E fl.match_ g0
        let rg := createReplacer E fl.replace mg.2
        let fl1 : Flags := if fl.veryverbose then { fl with verbose := true } else fl
        acceptLoop E fl1 laddr raddr mg.1 rg.1
          { status := Status.serving, globals := rg.2, acceptCalls := 0, spawned := [] }
          accepts

/-! ## An executable engine

A backtracking matcher for a fragment of the syntax of package `regexp`: literal
characters, `.`, escaped punctuation and the escapes `\a \f \n \r \t \v`, groups
`( )` and `(?: )`, alternation `|`, and the operators `* + ?` with their non-greedy
forms.  Package `regexp` returns the leftmost match that a backtracking search finds
first, which is what `Re.run` enumerates.  A pattern that uses other syntax (classes,
`^`, `$`, counted repetition, flags, named groups) is outside the fragment and is
reported as unsupported. -/

/-- The syntax tree of a pattern of the fragment. -/
inductive Re where
  | empty
  | lit (r : Nat)
  | anyNotNL
  | cat (a b : Re)
  | alt (a b : Re)
  | star (greedy : Bool) (a : Re)
  | plus (greedy : Bool) (a : Re)
  | quest (greedy : Bool) (a : Re)
  | group (idx : Nat) (a : Re)
deriving DecidableEq, Repr

/-- The text as a list of runes with their widths, from the byte sequence; `skip`
counts the bytes still to step over of the rune decoded last. -/
def decodeRunes : Nat → Bytes → List (Nat × Nat)
  | _, [] => []
  | skip + 1, _ :: rest => decodeRunes skip rest
  | 0, c :: rest =>
    DecodeRune (c :: rest) :: decodeRunes ((DecodeRune (c :: rest)).2 - 1) rest

/-- A state of the backtracking search: the byte offset reached, the runes left and
the bounds of the groups closed so far. -/
structure Thread where
  pos : Nat
  rest : List (Nat × Nat)
  caps : List (Option (Nat × Nat))
deriving DecidableEq, Repr

/-- The ways to match a repetition from `t`, preferred first.  An iteration that
consumes nothing ends the repetition; `fuel` exceeds the number of runes left. -/
def starLoop (greedy : Bool) (body : Thread → List Thread) : Nat → Thread → List Thread
  | 0, t => [t]
  | fuel + 1, t =>
    let more := (body t).flatMap (fun t1 =>
      if t1.rest.length < t.rest.length then starLoop greedy body fuel t1 else [t1])
    if greedy then more ++ [t] else t :: more

/-- The ways to match `re` from the state `t`, in the order a backtracking search
tries them. -/
def Re.run : Re → Thread → List Thread
  | Re.empty, t => [t]
  | Re.lit r, t =>
    match t.rest with
    | (c, w) :: rest => if c = r then [{ t with pos := t.pos + w, rest := rest }] else []
    | [] => []
  | Re.anyNotNL, t =>
    match t.rest with
    | (c, w) :: rest => if c ≠ 0x0A then [{ t with pos := t.pos + w, rest := rest }] else []
    | [] => []
  | Re.cat a b, t => (a.run t).flatMap (fun t1 => b.run t1)
  | Re.alt a b, t => a.run t ++ b.run t
  | Re.star greedy a, t => starLoop greedy (fun t1 => a.run t1) (t.rest.length + 1) t
  | Re.plus greedy a, t =>
    (a.run t).flatMap (fun t1 => starLoop greedy (fun t2 => a.run t2) (t1.rest.length + 1) t1)
  | Re.quest greedy a, t => if greedy then a.run t ++ [t] else t :: a.run t
  | Re.group idx a, t =>
    (a.run t).map (fun t1 => { t1 with caps := t1.caps.set (idx - 1) (some (t.pos, t1.pos)) })

/-- The leftmost match of `re`: the first start position, from `pos` on, at which the
backtracking search succeeds, with the first way it finds there. -/
def searchFrom (re : Re) (ncap : Nat) : Nat → List (Nat × Nat) → Option MatchIdx
  | pos, [] =>
    match (re.run { pos := pos, rest := [], caps := List.replicate ncap none }).head? with
    | some t => some { lo := pos, hi := t.pos, groups := t.caps }
    | none => none
  | pos, (c, w) :: rest =>
    match (re.run
      { pos := pos, rest := (c, w) :: rest, caps := List.replicate ncap none }).head? with
    | some t => some { lo := pos, hi := t.pos, groups := t.caps }
    | none => searchFrom re ncap (pos + w) rest

/-- An entry of the stack of the parser: an expression (`rep` tells whether it was
just made by a repetition operator), an opening parenthesis with the number of its
group, or a vertical bar. -/
inductive Item where
  | re (r : Re) (rep : Bool)
  | lparen (cap : Option Nat)
  | bar
deriving DecidableEq, Repr

/-- The expression made by the items above the nearest opening parenthesis: the
alternation of the concatenations between the bars.  The result holds the stack
that is left. -/
def collapse : List Item → Option Re → Option Re → Re × List Item
  | [], cur, alts =>
    (match alts with
      | none => cur.getD Re.empty
      | some a => Re.alt (cur.getD Re.empty) a, [])
  | Item.lparen cap :: st, cur, alts =>
    (match alts with
      | none => cur.getD Re.empty
      | some a => Re.alt (cur.getD Re.empty) a, Item.lparen cap :: st)
  | Item.re r _ :: st, cur, alts =>
    collapse st (some (match cur with
      | none => r
      | some c => Re.cat r c)) alts
  | Item.bar :: st, cur, alts =>
    collapse st none (some (match alts with
      | none => cur.getD Re.empty
      | some a => Re.alt (cur.getD Re.empty) a))

/-- Apply a repetition operator to the top of the stack. -/
def applyRep (op : Re → Re) : List Item → Except String (List Item)
  | Item.re r false :: st => Except.ok (Item.re (op r) true :: st)
  | Item.re _ true :: _ => Except.error "invalid nested repetition operator"
  | _ => Except.error "missing argument to repetition operator"

/-- Close a group: the items above the nearest opening parenthesis become one
expression. -/
def closeParen (st : List Item) : Except String (List Item) :=
  match collapse st none none with
  | (r, Item.lparen (some idx) :: st1) => Except.ok (Item.re (Re.group idx r) false :: st1)
  | (r, Item.lparen none :: st1) => Except.ok (Item.re r false :: st1)
  | _ => Except.error "unexpected )"

/-- The rune an escape `\c` of the fragment stands for. -/
def escapeRune (c : Nat) : Option Nat :=
  if c = 0x61 then some 0x07
  else if c = 0x66 then some 0x0C
  else if c = 0x6E then some 0x0A
  else if c = 0x72 then some 0x0D
  else if c = 0x74 then some 0x09
  else if c = 0x76 then some 0x0B
  else if c < 0x80 ∧ ¬ (0x30 ≤ c ∧ c ≤ 0x39) ∧ ¬ (0x41 ≤ c ∧ c ≤ 0x5A)
      ∧ ¬ (0x61 ≤ c ∧ c ≤ 0x7A) then some c
  else none

/-- The parser: one pass over the runes of the pattern, with a stack of items and
the number `ncap` of groups opened so far.  `skip` counts the runes still to step
over of a token that has been read.  The result is the expression and the number of
its groups. -/
def parseLoop : Nat → List Nat → List Item → Nat → Except String (Re × Nat)
  | _, [], st, ncap =>
    match collapse st none none with
    | (r, []) => Except.ok (r, ncap)
    | _ => Except.error "missing closing )"
  | skip + 1, _ :: rest, st, ncap => parseLoop skip rest st ncap
  | 0, c :: rest, st, ncap =>
    if c = 0x28 then
      if rest.take 2 = [0x3F, 0x3A] then parseLoop 2 rest (Item.lparen none :: st) ncap
      else if rest.head? = some 0x3F then Except.error "unsupported: group flags"
      else parseLoop 0 rest (Item.lparen (some (ncap + 1)) :: st) (ncap + 1)
    else if c = 0x29 then
      match closeParen st with
      | Except.ok st1 => parseLoop 0 rest st1 ncap
      | Except.error e => Except.error e
    else if c = 0x7C then parseLoop 0 rest (Item.bar :: st) ncap
    else if c = 0x2A ∨ c = 0x2B ∨ c = 0x3F then
      let op : Bool → Re → Re :=
        if c = 0x2A then Re.star else if c = 0x2B then Re.plus else Re.quest
      let lazy := rest.head? = some 0x3F
      match applyRep (op (!lazy)) st with
      | Except.ok st1 => parseLoop (if lazy then 1 else 0) rest st1 ncap
      | Except.error e => Except.error e
    else if c = 0x2E then parseLoop 0 rest (Item.re Re.anyNotNL false :: st) ncap
    else if c = 0x5C then
      match rest.head? with
      | none => Except.error "trailing backslash at end of expression"
      | some e =>
        match escapeRune e with
        | some r => parseLoop 1 rest (Item.re (Re.lit r) false :: st) ncap
        | none => Except.error "unsupported: escape"
    else if c = 0x5B ∨ c = 0x7B ∨ c = 0x5E ∨ c = 0x24 then
      Except.error "unsupported: class, counted repetition or anchor"
    else parseLoop 0 rest (Item.re (Re.lit c) false :: st) ncap

/-- A compiled pattern of the fragment: its source, its syntax tree and the number
of its groups. -/
structure Prog where
  src : Bytes
  re : Re
  ncap : Nat
deriving DecidableEq, Repr

/-- The function `regexp.Compile` on the fragment: a pattern that is not valid
UTF-8 or does not parse is an error. -/
def compileProg (pattern : Bytes) : Except String Prog :=
  let runes := decodeRunes 0 pattern
  if runes.any (fun rw => rw.1 == RuneError && rw.2 == 1) then Except.error "invalid UTF-8"
  else
    match parseLoop 0 (runes.map Prod.fst) [] 0 with
    | Except.ok (re, ncap) => Except.ok { src := pattern, re := re, ncap := ncap }
    | Except.error e => Except.error e

/-- One execution of the engine: the leftmost match at or after `pos`. -/
def Prog.exec (p : Prog) (b : Bytes) (pos : Nat) : Option MatchIdx :=
  if pos ≤ b.length then searchFrom p.re p.ncap pos (decodeRunes 0 (b.drop pos)) else none

/-- The letters of the ASCII range (the engine does not hold the Unicode tables). -/
def asciiLetter (r : Nat) : Bool := (0x41 ≤ r && r ≤ 0x5A) || (0x61 ≤ r && r ≤ 0x7A)

/-- The digits of the ASCII range. -/
def asciiDigit (r : Nat) : Bool := 0x30 ≤ r && r ≤ 0x39

/-! ## Definitions used to state the properties -/

/-- The offset one character after `pos`: past the rune that starts at `pos`, or past
the end of the text. -/
def afterRune (b : Bytes) (pos : Nat) : Nat := pos + max 1 (step b pos).2

/-- The successive non-overlapping occurrences of the pattern `re` in the text `b`, in
the words of the specification, for a scan that stands at `pos` after an occurrence that
ended at `prev` (`none` before the first one).  The next occurrence is the leftmost match
at or after `pos`, and the scan goes on from its end; a match of the empty text at `pos`
moves the scan one character on, and is no occurrence when it touches the end of the
occurrence before it.  The scan ends at the first position with no match, or past the
end of the text. -/
inductive Occurrences (E : RegexpPkg) (re : E.Regexp) (b : Bytes) :
    Nat → Option Nat → List MatchIdx → Prop where
  | past_end (pos : Nat) (prev : Option Nat) :
    b.length < pos → Occurrences E re b pos prev []
  | no_match (pos : Nat) (prev : Option Nat) :
    E.doExecute re b pos = none → Occurrences E re b pos prev []
  | found (pos : Nat) (prev : Option Nat) (m : MatchIdx) (rest : List MatchIdx) :
    pos ≤ b.length → E.doExecute re b pos = some m → m.hi ≠ pos →
    Occurrences E re b m.hi (some m.hi) rest →
    Occurrences E re b pos prev (m :: rest)
  | found_empty (pos : Nat) (prev : Option Nat) (m : MatchIdx) (rest : List MatchIdx) :
    pos ≤ b.length → E.doExecute re b pos = some m → m.hi = pos → prev ≠ some pos →
    Occurrences E re b (afterRune b pos) (some pos) rest →
    Occurrences E re b pos prev (m :: rest)
  | skip_empty (pos : Nat) (m : MatchIdx) (rest : List MatchIdx) :
    pos ≤ b.length → E.doExecute re b pos = some m → m.hi = pos →
    Occurrences E re b (afterRune b pos) (some pos) rest →
    Occurrences E re b pos (some pos) rest

/-- The end of the previous match as `allMatches` holds it: `-1` before the first. -/
def prevInt : Option Nat → Int
  | none => -1
  | some p => (p : Int)

/-- The text `b` from the offset `cur` on, with each of the occurrences (given in
order, none overlapping another) replaced by the text `f` gives for it. -/
def replaceOccurrencesBy (b : Bytes) (f : MatchIdx → Bytes) : List MatchIdx → Nat → Bytes
  | [], cur => b.drop cur
  | m :: rest, cur => slice b cur m.lo ++ f m ++ replaceOccurrencesBy b f rest m.hi

/-- The expansion of the replacement `R` for the occurrence `m` of the pattern in `src`,
as `Regexp.Expand` computes it from the capture slots `ReplaceAll` asks for: `$$` gives
`$`, `$name` and `${name}` the text of that group, every other byte stands for itself. -/
def expansion (E : RegexpPkg) (re : E.Regexp) (src R : Bytes) (m : MatchIdx) : Bytes :=
  expandLoop E re src
    (m.truncate (min (if (0x24 : UInt8) ∈ R then 2 * (E.numSubexp re + 1) else 2)
      (2 * (E.numSubexp re + 1)))) 0 R

/-- A replacement in which no `$` is followed by `$`, by a name or by `{name}`: every
`$` of it ends the text or stands before something `extract` reads no name from. -/
def plainTemplate (E : RegexpPkg) : Bytes → Bool
  | [] => true
  | c :: after =>
    (c != 0x24 || (after.head? != some 0x24 && (extract E after).isNone))
      && plainTemplate E after

/-- The text `b` from the offset `cur` on, with each of the occurrences `occ` (given in
order, none overlapping another) replaced by the literal text `R`: the wording of the
specification. -/
def replaceOccurrences (b R : Bytes) : List MatchIdx → Nat → Bytes
  | [], cur => b.drop cur
  | m :: rest, cur => slice b cur m.lo ++ R ++ replaceOccurrences b R rest m.hi

/-- The log entry of the match numbered `id` with text `m`, as the matcher writes it. -/
def matchEntry (id : Nat) (m : Bytes) : LogEntry :=
  { fn := LogFn.Info, args := [Arg.str "Match #%d: %s", Arg.uint id, Arg.text m] }

/-- The connections accepted among the results of `listener.AcceptTCP()`, in order. -/
def okConns : List (Except String TCPConn) → List TCPConn
  | [] => []
  | Except.ok conn :: rest => conn :: okConns rest
  | Except.error _ :: rest => okConns rest

/-- The identifier of a started proxy: the number in the prefix of its logger. -/
def Proxy.ident {E : RegexpPkg} (p : Proxy E) : Option Nat :=
  match p.Log with
  | some l =>
    match l.Prefix.args with
    | [_, Arg.uint n] => some n
    | _ => none
  | none => none

/-- The total width in bytes of a list of runes. -/
def sumW (l : List (Nat × Nat)) : Nat := (l.map Prod.snd).sum

/-- The state `t1` is reached from `t` by consuming runes of the text. -/
def Advances (t t1 : Thread) : Prop :=
  ∃ pre, t.rest = pre ++ t1.rest ∧ t1.pos = t.pos + sumW pre

/-! ## Inputs for the examples -/

/-- A network in which every address resolves and the local port can be opened. -/
def demoNet : Net :=
  { ResolveTCPAddr := fun s => Except.ok { addr := s }, ListenTCP := fun _ => Except.ok () }

/-- A command line: the default addresses, `-vv`, a match pattern and a replace
option. -/
def demoFlags : Flags :=
  { localAddr := ":9999", remoteAddr := "localhost:80", verbose := false, veryverbose := true,
    nagles := false, hex := false, colors := false, unwrapTLS := false,
    match_ := bytes "GET .*", replace := bytes "foo~bar" }

/-- Three results of `listener.AcceptTCP()`: a connection, a failure, a connection. -/
def demoAccepts : List (Except String TCPConn) :=
  [Except.ok { remote := "10.0.0.1:5000" }, Except.error "too many open files",
    Except.ok { remote := "10.0.0.2:5000" }]

/-! ## The executable engine obeys the laws of the interface -/

theorem DecodeRune_width (c : UInt8) (rest : Bytes) :
    1 ≤ (DecodeRune (c :: rest)).2 ∧ (DecodeRune (c :: rest)).2 ≤ rest.length + 1 := by
  rcases rest with _ | ⟨b1, _ | ⟨b2, _ | ⟨b3, r⟩⟩⟩ <;> simp only [DecodeRune] <;>
    split_ifs <;> simp

theorem sumW_decodeRunes : ∀ (b : Bytes) (skip : Nat), skip ≤ b.length →
    sumW (decodeRunes skip b) + skip = b.length := by
  intro b
  induction b with
  | nil => intro skip h; simp at h; subst h; simp [decodeRunes, sumW]
  | cons c rest ih =>
    intro skip h
    cases skip with
    | zero =>
      have hw := DecodeRune_width c rest
      have := ih ((DecodeRune (c :: rest)).2 - 1) (by omega)
      simp only [decodeRunes, sumW, List.map_cons, List.sum_cons, List.length_cons] at this ⊢
      omega
    | succ k =>
      have := ih k (by simpa using h)
      simp only [decodeRunes, List.length_cons]
      omega


theorem sumW_append (l1 l2 : List (Nat × Nat)) : sumW (l1 ++ l2) = sumW l1 + sumW l2 := by
  simp [sumW]

theorem Advances.refl (t : Thread) : Advances t t := ⟨[], by simp, by simp [sumW]⟩

theorem Advances.trans {t t1 t2 : Thread} (h1 : Advances t t1) (h2 : Advances t1 t2) :
    Advances t t2 := by
  obtain ⟨p1, hr1, hp1⟩ := h1
  obtain ⟨p2, hr2, hp2⟩ := h2
  refine ⟨p1 ++ p2, ?_, ?_⟩
  · rw [hr1, hr2, List.append_assoc]
  · rw [hp2, hp1, sumW_append, Nat.add_assoc]

theorem starLoop_advances (greedy : Bool) (body : Thread → List Thread)
    (hbody : ∀ t t1, t1 ∈ body t → Advances t t1) :
    ∀ (fuel : Nat) (t t1 : Thread), t1 ∈ starLoop greedy body fuel t → Advances t t1 := by
  intro fuel
  induction fuel with
  | zero =>
    intro t t1 h
    simp only [starLoop, List.mem_singleton] at h
    subst h
    exact Advances.refl _
  | succ k ih =>
    intro t t1 h
    have key : ∀ x, x ∈ (body t).flatMap (fun t2 =>
        if t2.rest.length < t.rest.length then starLoop greedy body k t2 else [t2]) →
        Advances t x := by
      intro x hx
      rw [List.mem_flatMap] at hx
      obtain ⟨t2, ht2, hx⟩ := hx
      have h2 := hbody t t2 ht2
      split_ifs at hx
      · exact h2.trans (ih t2 x hx)
      · simp only [List.mem_singleton] at hx
        subst hx
        exact h2
    simp only [starLoop] at h
    split_ifs at h
    · rw [List.mem_append] at h
      rcases h with h | h
      · exact key _ h
      · simp only [List.mem_singleton] at h
        subst h
        exact Advances.refl _
    · rw [List.mem_cons] at h
      rcases h with h | h
      · subst h
        exact Advances.refl _
      · exact key _ h

theorem run_advances : ∀ (re : Re) (t t1 : Thread), t1 ∈ re.run t → Advances t t1 := by
  intro re
  induction re with
  | empty =>
    intro t t1 h
    simp only [Re.run, List.mem_singleton] at h
    subst h
    exact Advances.refl _
  | lit r =>
    intro t t1 h
    simp only [Re.run] at h
    split at h
    · next c w rest hrest =>
      split_ifs at h
      · simp only [List.mem_singleton] at h
        subst h
        exact ⟨[(c, w)], by simp [hrest], by simp [sumW]⟩
      · simp at h
    · simp at h
  | anyNotNL =>
    intro t t1 h
    simp only [Re.run] at h
    split at h
    · next c w rest hrest =>
      split_ifs at h
      · simp only [List.mem_singleton] at h
        subst h
        exact ⟨[(c, w)], by simp [hrest], by simp [sumW]⟩
      · simp at h
    · simp at h
  | cat a b iha ihb =>
    intro t t1 h
    simp only [Re.run, List.mem_flatMap] at h
    obtain ⟨t2, h2, h⟩ := h
    exact (iha _ _ h2).trans (ihb _ _ h)
  | alt a b iha ihb =>
    intro t t1 h
    simp only [Re.run, List.mem_append] at h
    rcases h with h | h
    · exact iha _ _ h
    · exact ihb _ _ h
  | star greedy a iha =>
    intro t t1 h
    simp only [Re.run] at h
    exact starLoop_advances greedy _ iha _ _ _ h
  | plus greedy a iha =>
    intro t t1 h
    simp only [Re.run, List.mem_flatMap] at h
    obtain ⟨t2, h2, h⟩ := h
    exact (iha _ _ h2).trans (starLoop_advances greedy _ iha _ _ _ h)
  | quest greedy a iha =>
    intro t t1 h
    simp only [Re.run] at h
    split_ifs at h
    · rw [List.mem_append] at h
      rcases h with h | h
      · exact iha _ _ h
      · simp only [List.mem_singleton] at h
        subst h
        exact Advances.refl _
    · rw [List.mem_cons] at h
      rcases h with h | h
      · subst h
        exact Advances.refl _
      · exact iha _ _ h
  | group idx a iha =>
    intro t t1 h
    simp only [Re.run, List.mem_map] at h
    obtain ⟨t2, h2, rfl⟩ := h
    obtain ⟨pre, hr, hp⟩ := iha _ _ h2
    exact ⟨pre, hr, hp⟩

theorem searchFrom_spec (re : Re) (ncap : Nat) :
    ∀ (rest : List (Nat × Nat)) (pos : Nat) (m : MatchIdx),
      searchFrom re ncap pos rest = some m →
      ∃ pre1 pre2 suf, rest = pre1 ++ pre2 ++ suf ∧ m.lo = pos + sumW pre1 ∧
        m.hi = m.lo + sumW pre2 := by
  intro rest
  induction rest with
  | nil =>
    intro pos m h
    simp only [searchFrom] at h
    split at h
    · next t ht =>
      have hmem := List.mem_of_mem_head? ht
      obtain ⟨pre, hr, hp⟩ := run_advances re _ _ hmem
      simp only [Option.some.injEq] at h
      subst h
      exact ⟨[], pre, t.rest, by simpa using hr, by simp [sumW], by simpa using hp⟩
    · simp at h
  | cons cw rest ih =>
    intro pos m h
    obtain ⟨c, w⟩ := cw
    simp only [searchFrom] at h
    split at h
    · next t ht =>
      have hmem := List.mem_of_mem_head? ht
      obtain ⟨pre, hr, hp⟩ := run_advances re _ _ hmem
      simp only [Option.some.injEq] at h
      subst h
      exact ⟨[], pre, t.rest, by simpa using hr, by simp [sumW], by simpa using hp⟩
    · obtain ⟨pre1, pre2, suf, hr, hlo, hhi⟩ := ih _ _ h
      refine ⟨(c, w) :: pre1, pre2, suf, by simp [hr], ?_, hhi⟩
      rw [hlo]
      simp [sumW]
      omega


theorem Prog.exec_bounds (p : Prog) (b : Bytes) (pos : Nat) (m : MatchIdx)
    (h : p.exec b pos = some m) : pos ≤ m.lo ∧ m.lo ≤ m.hi ∧ m.hi ≤ b.length := by
  unfold Prog.exec at h
  split_ifs at h with hpos
  obtain ⟨pre1, pre2, suf, hr, hlo, hhi⟩ := searchFrom_spec _ _ _ _ _ h
  have hsum := sumW_decodeRunes (b.drop pos) 0 (Nat.zero_le _)
  rw [hr, sumW_append, sumW_append, List.length_drop] at hsum
  omega

theorem Prog.exec_rune (p : Prog) (b : Bytes) (pos : Nat) (m : MatchIdx)
    (h : p.exec b pos = some m) (hne : m.hi ≠ pos) : pos + (step b pos).2 ≤ m.hi := by
  have hb := Prog.exec_bounds p b pos m h
  unfold Prog.exec at h
  split_ifs at h with hpos
  obtain ⟨pre1, pre2, suf, hr, hlo, hhi⟩ := searchFrom_spec _ _ _ _ _ h
  unfold step
  split_ifs with hlt
  · cases hd : b.drop pos with
    | nil =>
      have := congrArg List.length hd
      simp at this
      omega
    | cons c rest =>
      rw [hd] at hr
      simp only [decodeRunes] at hr
      rcases pre1 with _ | ⟨x, pre1⟩
      · rcases pre2 with _ | ⟨y, pre2⟩
        · simp [sumW] at hlo hhi
          omega
        · simp only [List.nil_append, List.cons_append, List.cons.injEq] at hr
          rw [hr.1]
          simp [sumW] at hlo hhi ⊢
          omega
      · simp only [List.cons_append, List.cons.injEq] at hr
        rw [hr.1]
        simp [sumW] at hlo hhi ⊢
        omega
  · simp
    omega

/-- The executable engine as an instance of the interface of package `regexp`. -/
def goRegexp : RegexpPkg where
  Regexp := Prog
  Compile := compileProg
  source := Prog.src
  numSubexp := Prog.ncap
  subexpNames := fun p => List.replicate (p.ncap + 1) []
  doExecute := Prog.exec
  IsLetter := asciiLetter
  IsDigit := asciiDigit
  exec_bounds := Prog.exec_bounds
  exec_rune := Prog.exec_rune


/-! ## The loops of package `regexp`, one turn at a time -/

theorem allMatchesLoop_stop (E : RegexpPkg) (re : E.Regexp) (b : Bytes) (n pos i : Nat)
    (prev : Int) (h : ¬ (i < n ∧ pos ≤ b.length)) :
    allMatchesLoop E re b n pos i prev = [] := by
  rw [allMatchesLoop, if_neg h]

theorem allMatchesLoop_none (E : RegexpPkg) (re : E.Regexp) (b : Bytes) (n pos i : Nat)
    (prev : Int) (hm : E.doExecute re b pos = none) :
    allMatchesLoop E re b n pos i prev = [] := by
  rw [allMatchesLoop]
  split
  · split
    · rfl
    · next m hm2 => rw [hm] at hm2; cases hm2
  · rfl

theorem allMatchesLoop_some (E : RegexpPkg) (re : E.Regexp) (b : Bytes) (n pos i : Nat)
    (prev : Int) (m : MatchIdx) (hi : i < n) (hpos : pos ≤ b.length)
    (hm : E.doExecute re b pos = some m) :
    allMatchesLoop E re b n pos i prev =
      if (m.hi == pos && (m.lo : Int) == prev) = true then
        allMatchesLoop E re b n (nextPos b pos m.hi) i m.hi
      else m :: allMatchesLoop E re b n (nextPos b pos m.hi) (i + 1) m.hi := by
  rw [allMatchesLoop]
  rw [if_pos ⟨hi, hpos⟩]
  split
  · next hm2 => rw [hm] at hm2; cases hm2
  · next m2 hm2 =>
    rw [hm] at hm2
    cases hm2
    by_cases hc : (m.hi == pos && (m.lo : Int) == prev) = true <;> simp [hc]

theorem replaceAllLoop_stop (E : RegexpPkg) (re : E.Regexp) (bsrc : Bytes) (nmatch : Nat)
    (repl : Bytes → MatchIdx → Bytes) (last pos : Nat) (buf : Bytes)
    (h : ¬ pos ≤ bsrc.length) :
    replaceAllLoop E re bsrc nmatch repl last pos buf = buf ++ bsrc.drop last := by
  rw [replaceAllLoop, if_neg h]

theorem replaceAllLoop_none (E : RegexpPkg) (re : E.Regexp) (bsrc : Bytes) (nmatch : Nat)
    (repl : Bytes → MatchIdx → Bytes) (last pos : Nat) (buf : Bytes)
    (hm : E.doExecute re bsrc pos = none) :
    replaceAllLoop E re bsrc nmatch repl last pos buf = buf ++ bsrc.drop last := by
  rw [replaceAllLoop]
  split
  · split
    · rfl
    · next m hm2 => rw [hm] at hm2; cases hm2
  · rfl

theorem replaceAllLoop_some (E : RegexpPkg) (re : E.Regexp) (bsrc : Bytes) (nmatch : Nat)
    (repl : Bytes → MatchIdx → Bytes) (last pos : Nat) (buf : Bytes) (m : MatchIdx)
    (hpos : pos ≤ bsrc.length) (hm : E.doExecute re bsrc pos = some m) :
    replaceAllLoop E re bsrc nmatch repl last pos buf =
      replaceAllLoop E re bsrc nmatch repl m.hi (advance bsrc pos m.hi)
        (if m.hi > last ∨ m.lo = 0 then
          repl (buf ++ slice bsrc last m.lo) (m.truncate nmatch)
        else buf ++ slice bsrc last m.lo) := by
  rw [replaceAllLoop]
  rw [if_pos hpos]
  split
  · next hm2 => rw [hm] at hm2; cases hm2
  · next m2 hm2 =>
    rw [hm] at hm2
    cases hm2
    simp only [MatchIdx.truncate]

theorem advance_eq_nextPos (E : RegexpPkg) (re : E.Regexp) (b : Bytes) (pos : Nat)
    (m : MatchIdx) (hpos : pos ≤ b.length) (hm : E.doExecute re b pos = some m) :
    advance b pos m.hi = nextPos b pos m.hi := by
  have hb := E.exec_bounds re b pos m hm
  have hr := E.exec_rune re b pos m hm
  unfold advance nextPos
  by_cases hlt : pos < b.length
  · have hstep : (step b pos).2 = (DecodeRune (b.drop pos)).2 := by simp [step, hlt]
    have hw : 1 ≤ (DecodeRune (b.drop pos)).2 := by
      cases hd : b.drop pos with
      | nil =>
        have := congrArg List.length hd
        simp at this
        omega
      | cons c rest => exact (DecodeRune_width c rest).1
    rw [hstep] at hr ⊢
    by_cases he : m.hi = pos
    · simp only [he, if_true]
      rw [if_pos (by omega), if_pos (by omega)]
    · have := hr he
      simp only [he, if_false]
      rw [if_neg (by omega), if_neg (by omega)]
  · have hpl : pos = b.length := by omega
    have hd : b.drop pos = [] := by simp [hpl]
    have hstep : (step b pos).2 = 0 := by simp [step, hlt]
    rw [hstep, hd]
    simp only [DecodeRune]
    have he : m.hi = pos := by omega
    simp [he]
    omega


theorem nextPos_ge (E : RegexpPkg) (re : E.Regexp) (b : Bytes) (pos : Nat) (m : MatchIdx)
    (hm : E.doExecute re b pos = some m) :
    pos < nextPos b pos m.hi ∧ m.hi ≤ nextPos b pos m.hi := by
  have hb := E.exec_bounds re b pos m hm
  unfold nextPos
  split_ifs <;> omega

theorem allMatchesLoop_bounds (E : RegexpPkg) (re : E.Regexp) (b : Bytes) (n : Nat) :
    ∀ (k pos i : Nat) (prev : Int), b.length + 1 - pos ≤ k →
      ∀ m ∈ allMatchesLoop E re b n pos i prev,
        pos ≤ m.lo ∧ m.lo ≤ m.hi ∧ m.hi ≤ b.length := by
  intro k
  induction k with
  | zero =>
    intro pos i prev hk m hmem
    rw [allMatchesLoop_stop _ _ _ _ _ _ _ (fun h => by omega)] at hmem
    cases hmem
  | succ k ih =>
    intro pos i prev hk m hmem
    by_cases hc : i < n ∧ pos ≤ b.length
    · cases hm : E.doExecute re b pos with
      | none =>
        rw [allMatchesLoop_none _ _ _ _ _ _ _ hm] at hmem
        cases hmem
      | some m0 =>
        have hb := E.exec_bounds re b pos m0 hm
        have hnext := nextPos_ge E re b pos m0 hm
        rw [allMatchesLoop_some _ _ _ _ _ _ _ _ hc.1 hc.2 hm] at hmem
        split_ifs at hmem
        · have := ih _ _ _ (by omega) m hmem
          omega
        · rw [List.mem_cons] at hmem
          rcases hmem with rfl | hmem
          · exact hb
          · have := ih _ _ _ (by omega) m hmem
            omega
    · rw [allMatchesLoop_stop _ _ _ _ _ _ _ hc] at hmem
      cases hmem

theorem allMatchesLoop_pairwise (E : RegexpPkg) (re : E.Regexp) (b : Bytes) (n : Nat) :
    ∀ (k pos i : Nat) (prev : Int), b.length + 1 - pos ≤ k →
      List.Pairwise (fun a c => a.hi ≤ c.lo) (allMatchesLoop E re b n pos i prev) := by
  intro k
  induction k with
  | zero =>
    intro pos i prev hk
    rw [allMatchesLoop_stop _ _ _ _ _ _ _ (fun h => by omega)]
    exact List.Pairwise.nil
  | succ k ih =>
    intro pos i prev hk
    by_cases hc : i < n ∧ pos ≤ b.length
    · cases hm : E.doExecute re b pos with
      | none =>
        rw [allMatchesLoop_none _ _ _ _ _ _ _ hm]
        exact List.Pairwise.nil
      | some m0 =>
        have hnext := nextPos_ge E re b pos m0 hm
        rw [allMatchesLoop_some _ _ _ _ _ _ _ _ hc.1 hc.2 hm]
        split_ifs
        · exact ih _ _ _ (by omega)
        · refine List.Pairwise.cons ?_ (ih _ _ _ (by omega))
          intro c hmem
          have := allMatchesLoop_bounds E re b n _ _ _ _ (le_refl _) c hmem
          omega
    · rw [allMatchesLoop_stop _ _ _ _ _ _ _ hc]
      exact List.Pairwise.nil

theorem allMatches_occurrences (E : RegexpPkg) (re : E.Regexp) (b : Bytes) :
    List.Pairwise (fun a c => a.hi ≤ c.lo) (allMatches E re b (-1)) ∧
    ∀ m ∈ allMatches E re b (-1), m.lo ≤ m.hi ∧ m.hi ≤ b.length := by
  unfold allMatches
  refine ⟨allMatchesLoop_pairwise E re b _ _ _ _ _ (le_refl _), ?_⟩
  intro m hmem
  exact (allMatchesLoop_bounds E re b _ _ _ _ _ (le_refl _) m hmem).2

theorem expandLoop_plain (E : RegexpPkg) (re : E.Regexp) (bsrc : Bytes) (m : MatchIdx) :
    ∀ (template : Bytes), plainTemplate E template = true →
      expandLoop E re bsrc m 0 template = template := by
  intro template
  induction template with
  | nil => intro _; simp [expandLoop]
  | cons c after ih =>
    intro h
    simp only [plainTemplate, Bool.and_eq_true, Bool.or_eq_true, bne_iff_ne, ne_eq,
      Option.isNone_iff_eq_none] at h
    obtain ⟨hc, hafter⟩ := h
    have ih1 := ih hafter
    rw [expandLoop.eq_def]
    by_cases hd : c = 0x24
    · subst hd
      simp only [ne_eq, not_true_eq_false, if_false]
      rcases hc with hc | ⟨hhead, hext⟩
      · exact absurd rfl hc
      · cases after with
        | nil => rfl
        | cons c1 rest =>
          have hc1 : c1 ≠ 0x24 := by
            intro e
            apply hhead
            simp [e]
          simp only [hc1, if_false, hext]
          rw [expandLoop.eq_def] at ih1
          simp only [ne_eq, hc1, not_false_eq_true, if_true, List.cons.injEq, true_and] at ih1
          rw [ih1]
    · simp only [ne_eq, hd, not_false_eq_true, if_true, ih1]

theorem plainTemplate_no_dollar (E : RegexpPkg) :
    ∀ (R : Bytes), (0x24 : UInt8) ∉ R → plainTemplate E R = true := by
  intro R
  induction R with
  | nil => intro _; rfl
  | cons c rest ih =>
    intro h
    simp only [List.mem_cons, not_or] at h
    have hc : c ≠ 0x24 := fun hc => h.1 hc.symm
    simp [plainTemplate, hc, ih h.2]

theorem expandLoop_no_dollar (E : RegexpPkg) (re : E.Regexp) (bsrc : Bytes) (m : MatchIdx)
    (template : Bytes) (h : (0x24 : UInt8) ∉ template) :
    expandLoop E re bsrc m 0 template = template :=
  expandLoop_plain E re bsrc m template (plainTemplate_no_dollar E template h)

theorem slice_self (b : Bytes) (k : Nat) : slice b k k = [] := by
  simp [slice]

theorem replaceOccurrencesBy_const (b R : Bytes) :
    ∀ (occs : List MatchIdx) (cur : Nat),
      replaceOccurrencesBy b (fun _ => R) occs cur = replaceOccurrences b R occs cur := by
  intro occs
  induction occs with
  | nil => intro cur; rfl
  | cons m rest ih =>
    intro cur
    simp only [replaceOccurrencesBy, replaceOccurrences, ih]

theorem replaceOccurrencesBy_congr (b : Bytes) (f g : MatchIdx → Bytes) :
    ∀ (occs : List MatchIdx) (cur : Nat), (∀ m ∈ occs, f m = g m) →
      replaceOccurrencesBy b f occs cur = replaceOccurrencesBy b g occs cur := by
  intro occs
  induction occs with
  | nil => intro cur _; rfl
  | cons m rest ih =>
    intro cur h
    simp only [replaceOccurrencesBy]
    rw [h m (List.mem_cons_self _ _), ih m.hi (fun x hx => h x (List.mem_cons_of_mem _ hx))]

theorem replaceAllLoop_by (E : RegexpPkg) (re : E.Regexp) (b : Bytes) (f : MatchIdx → Bytes)
    (nmatch : Nat) :
    ∀ (k pos i last : Nat) (prev : Int) (buf : Bytes),
      b.length + 1 - pos ≤ k → i ≤ pos → last ≤ pos →
      ((prev = -1 ∧ last = 0 ∧ pos = 0) ∨ (prev = (last : Int) ∧ 0 < pos)) →
      replaceAllLoop E re b nmatch (fun dst m => dst ++ f m) last pos buf =
        buf ++ replaceOccurrencesBy b (fun m => f (m.truncate nmatch))
          (allMatchesLoop E re b (b.length + 1) pos i prev) last := by
  intro k
  induction k with
  | zero =>
    intro pos i last prev buf hk _ _ _
    have hpos : ¬ pos ≤ b.length := by omega
    rw [replaceAllLoop_stop _ _ _ _ _ _ _ _ hpos,
      allMatchesLoop_stop _ _ _ _ _ _ _ (fun h => hpos h.2)]
    rfl
  | succ k ih =>
    intro pos i last prev buf hk hi hlast hinv
    by_cases hpos : pos ≤ b.length
    · cases hm : E.doExecute re b pos with
      | none =>
        rw [replaceAllLoop_none _ _ _ _ _ _ _ _ hm, allMatchesLoop_none _ _ _ _ _ _ _ hm]
        rfl
      | some m =>
        have hb := E.exec_bounds re b pos m hm
        have hadv := advance_eq_nextPos E re b pos m hpos hm
        have hnext : pos < nextPos b pos m.hi ∧ m.hi ≤ nextPos b pos m.hi := by
          unfold nextPos
          split_ifs <;> omega
        rw [replaceAllLoop_some _ _ _ _ _ _ _ _ _ hpos hm,
          allMatchesLoop_some _ _ _ _ _ _ _ _ (by omega) hpos hm, hadv]
        by_cases hrej : (m.hi == pos && (m.lo : Int) == prev) = true
        · rw [if_pos hrej]
          simp only [Bool.and_eq_true, beq_iff_eq] at hrej
          obtain ⟨h1, h2⟩ := hrej
          have hprev : prev = (last : Int) ∧ 0 < pos := by
            rcases hinv with ⟨hp, _, _⟩ | h
            · omega
            · exact h
          have hlo : m.lo = last := by omega
          have hhi : m.hi = last := by omega
          rw [if_neg (by omega), hlo, slice_self, List.append_nil,
            ih _ i m.hi m.hi buf (by omega) (by omega) (by omega) (Or.inr ⟨rfl, by omega⟩), hhi]
        · rw [if_neg hrej]
          simp only [Bool.and_eq_true, beq_iff_eq, not_and] at hrej
          have hacc : m.hi > last ∨ m.lo = 0 := by
            rcases hinv with ⟨_, hl, hp⟩ | ⟨hp, hpos0⟩
            · omega
            · by_cases h1 : m.hi = pos
              · have := hrej h1
                omega
              · omega
          rw [if_pos hacc]
          rw [ih _ (i + 1) _ _ _ (by omega) (by omega) (by omega) (Or.inr ⟨rfl, by omega⟩)]
          simp only [replaceOccurrencesBy, List.append_assoc]
    · rw [replaceAllLoop_stop _ _ _ _ _ _ _ _ hpos,
        allMatchesLoop_stop _ _ _ _ _ _ _ (fun h => hpos h.2)]
      rfl

theorem ReplaceAll_expansion (E : RegexpPkg) (re : E.Regexp) (src R : Bytes) :
    ReplaceAll E re src R =
      replaceOccurrencesBy src (expansion E re src R) (allMatches E re src (-1)) 0 := by
  have hfun : (fun (dst : Bytes) (m : MatchIdx) => expand E re dst R src m) =
      (fun dst m => dst ++ expandLoop E re src m 0 R) := by
    funext dst m
    rfl
  unfold ReplaceAll replaceAll allMatches
  simp only [hfun]
  rw [replaceAllLoop_by E re src (fun m => expandLoop E re src m 0 R) _ (src.length + 1)
    0 0 0 (-1) [] (by omega) (le_refl _) (le_refl _) (Or.inl ⟨rfl, rfl, rfl⟩)]
  unfold expansion
  simp

theorem ReplaceAll_plain (E : RegexpPkg) (re : E.Regexp) (src R : Bytes)
    (hR : plainTemplate E R = true) :
    ReplaceAll E re src R = replaceOccurrences src R (allMatches E re src (-1)) 0 := by
  rw [ReplaceAll_expansion, ← replaceOccurrencesBy_const]
  apply replaceOccurrencesBy_congr
  intro m _
  exact expandLoop_plain E re src _ R hR

theorem ReplaceAll_literal (E : RegexpPkg) (re : E.Regexp) (src R : Bytes)
    (hR : (0x24 : UInt8) ∉ R) :
    ReplaceAll E re src R = replaceOccurrences src R (allMatches E re src (-1)) 0 :=
  ReplaceAll_plain E re src R (plainTemplate_no_dollar E R hR)

theorem afterRune_eq_nextPos (b : Bytes) (pos : Nat) (hpos : pos ≤ b.length) :
    afterRune b pos = nextPos b pos pos := by
  unfold afterRune nextPos
  rw [if_pos rfl]
  by_cases hlt : pos < b.length
  · have hw : 1 ≤ (step b pos).2 := by
      simp only [step, hlt, if_true]
      cases hd : b.drop pos with
      | nil =>
        have := congrArg List.length hd
        simp at this
        omega
      | cons c rest => exact (DecodeRune_width c rest).1
    rw [if_pos (by omega), Nat.max_eq_right hw]
  · have hw : (step b pos).2 = 0 := by simp [step, hlt]
    rw [hw]
    simp
    omega

theorem allMatchesLoop_occurrences (E : RegexpPkg) (re : E.Regexp) (b : Bytes) :
    ∀ (k pos i : Nat) (prev : Option Nat), b.length + 1 - pos ≤ k → i ≤ pos →
      Occurrences E re b pos prev
        (allMatchesLoop E re b (b.length + 1) pos i (prevInt prev)) := by
  intro k
  induction k with
  | zero =>
    intro pos i prev hk _
    rw [allMatchesLoop_stop _ _ _ _ _ _ _ (fun h => by omega)]
    exact Occurrences.past_end pos prev (by omega)
  | succ k ih =>
    intro pos i prev hk hi
    by_cases hpos : pos ≤ b.length
    · cases hm : E.doExecute re b pos with
      | none =>
        rw [allMatchesLoop_none _ _ _ _ _ _ _ hm]
        exact Occurrences.no_match pos prev hm
      | some m =>
        have hb := E.exec_bounds re b pos m hm
        have hnext := nextPos_ge E re b pos m hm
        rw [allMatchesLoop_some _ _ _ _ _ _ _ _ (by omega) hpos hm]
        by_cases hhi : m.hi = pos
        · have hlo : m.lo = pos := by omega
          have hafter : afterRune b pos = nextPos b pos m.hi := by
            rw [hhi]
            exact afterRune_eq_nextPos b pos hpos
          by_cases hprev : prev = some pos
          · subst hprev
            rw [if_pos (by simp [hhi, hlo, prevInt])]
            have h1 := ih (nextPos b pos m.hi) i (some m.hi) (by omega) (by omega)
            simp only [prevInt] at h1
            rw [← hafter, hhi] at h1
            rw [← hafter]
            exact Occurrences.skip_empty pos m _ hpos hm hhi (by simpa [hhi] using h1)
          · have hne : ¬ ((m.hi == pos && (m.lo : Int) == prevInt prev) = true) := by
              simp only [Bool.and_eq_true, beq_iff_eq, not_and]
              intro _ h2
              apply hprev
              cases prev with
              | none =>
                simp only [prevInt] at h2
                omega
              | some p =>
                simp only [prevInt] at h2
                congr 1
                omega
            rw [if_neg hne]
            have h1 := ih (nextPos b pos m.hi) (i + 1) (some m.hi) (by omega) (by omega)
            simp only [prevInt] at h1
            rw [← hafter] at h1 ⊢
            rw [hhi] at h1
            exact Occurrences.found_empty pos prev m _ hpos hm hhi hprev
              (by simpa [hhi] using h1)
        · have hnp : nextPos b pos m.hi = m.hi := by
            unfold nextPos
            rw [if_neg hhi]
          rw [if_neg (by simp [hhi]), hnp]
          have h1 := ih m.hi (i + 1) (some m.hi) (by omega) (by omega)
          simp only [prevInt] at h1
          exact Occurrences.found pos prev m _ hpos hm hhi h1
    · rw [allMatchesLoop_stop _ _ _ _ _ _ _ (fun h => hpos h.2)]
      exact Occurrences.past_end pos prev (by omega)

theorem Occurrences.eq_loop (E : RegexpPkg) (re : E.Regexp) (b : Bytes) (pos : Nat)
    (prev : Option Nat) (occs : List MatchIdx) (h : Occurrences E re b pos prev occs) :
    ∀ (i : Nat), i ≤ pos →
      occs = allMatchesLoop E re b (b.length + 1) pos i (prevInt prev) := by
  induction h with
  | past_end pos prev hlt =>
    intro i _
    rw [allMatchesLoop_stop _ _ _ _ _ _ _ (fun h => by omega)]
  | no_match pos prev hm =>
    intro i _
    rw [allMatchesLoop_none _ _ _ _ _ _ _ hm]
  | found pos prev m rest hpos hm hhi _ ih =>
    intro i hi
    have hb := E.exec_bounds re b pos m hm
    have hnp : nextPos b pos m.hi = m.hi := by
      unfold nextPos
      rw [if_neg hhi]
    rw [allMatchesLoop_some _ _ _ _ _ _ _ _ (by omega) hpos hm, if_neg (by simp [hhi]), hnp]
    have := ih (i + 1) (by omega)
    simp only [prevInt] at this
    rw [← this]
  | found_empty pos prev m rest hpos hm hhi hprev _ ih =>
    intro i hi
    have hb := E.exec_bounds re b pos m hm
    have hlo : m.lo = pos := by omega
    have hnext := nextPos_ge E re b pos m hm
    have hafter : afterRune b pos = nextPos b pos m.hi := by
      rw [hhi]
      exact afterRune_eq_nextPos b pos hpos
    have hne : ¬ ((m.hi == pos && (m.lo : Int) == prevInt prev) = true) := by
      simp only [Bool.and_eq_true, beq_iff_eq, not_and]
      intro _ h2
      apply hprev
      cases prev with
      | none =>
        simp only [prevInt] at h2
        omega
      | some p =>
        simp only [prevInt] at h2
        congr 1
        omega
    rw [allMatchesLoop_some _ _ _ _ _ _ _ _ (by omega) hpos hm, if_neg hne, ← hafter]
    have := ih (i + 1) (by rw [hafter]; omega)
    simp only [prevInt] at this
    rw [hhi, ← this]
  | skip_empty pos m rest hpos hm hhi _ ih =>
    intro i hi
    have hb := E.exec_bounds re b pos m hm
    have hlo : m.lo = pos := by omega
    have hnext := nextPos_ge E re b pos m hm
    have hafter : afterRune b pos = nextPos b pos m.hi := by
      rw [hhi]
      exact afterRune_eq_nextPos b pos hpos
    rw [allMatchesLoop_some _ _ _ _ _ _ _ _ (by omega) hpos hm,
      if_pos (by simp [hhi, hlo, prevInt]), ← hafter]
    have := ih i (by rw [hafter]; omega)
    simp only [prevInt] at this
    rw [hhi, ← this]

theorem allMatches_unique (E : RegexpPkg) (re : E.Regexp) (b : Bytes)
    (occs : List MatchIdx) :
    Occurrences E re b 0 none occs ↔ occs = allMatches E re b (-1) := by
  have hall : allMatches E re b (-1) =
      allMatchesLoop E re b (b.length + 1) 0 0 (prevInt none) := by
    simp [allMatches, prevInt]
  constructor
  · intro h
    rw [hall]
    exact Occurrences.eq_loop E re b 0 none occs h 0 (le_refl _)
  · intro h
    rw [h, hall]
    exact allMatchesLoop_occurrences E re b _ 0 0 none (le_refl _) (le_refl _)

/-! ## `strings.Split` at the separator `~` -/

theorem splitLoop_tilde_cons (cur : Bytes) (c : UInt8) (rest : Bytes) :
    splitLoop [tilde] 0 cur (c :: rest) =
      if c = tilde then cur.reverse :: splitLoop [tilde] 0 [] rest
      else splitLoop [tilde] 0 (c :: cur) rest := by
  rw [splitLoop]
  by_cases h : c = tilde
  · subst h
    simp [List.isPrefixOf]
  · have h2 : ¬ tilde = c := fun e => h e.symm
    simp [List.isPrefixOf, h, h2]

theorem splitLoop_tilde_length : ∀ (s cur : Bytes),
    (splitLoop [tilde] 0 cur s).length = s.count tilde + 1 := by
  intro s
  induction s with
  | nil => intro cur; simp [splitLoop]
  | cons c rest ih =>
    intro cur
    rw [splitLoop_tilde_cons]
    by_cases h : c = tilde
    · subst h
      simp [ih]
    · have h2 : ¬ (c == tilde) = true := by simpa using h
      rw [if_neg h, ih, List.count_cons, if_neg h2]

theorem splitLoop_tilde_not_mem : ∀ (s cur : Bytes), tilde ∉ s →
    splitLoop [tilde] 0 cur s = [cur.reverse ++ s] := by
  intro s
  induction s with
  | nil => intro cur _; simp [splitLoop]
  | cons c rest ih =>
    intro cur h
    simp only [List.mem_cons, not_or] at h
    have hc : c ≠ tilde := fun e => h.1 e.symm
    rw [splitLoop_tilde_cons, if_neg hc, ih _ h.2]
    simp

theorem splitLoop_tilde_append : ∀ (P cur R : Bytes), tilde ∉ P →
    splitLoop [tilde] 0 cur (P ++ tilde :: R) =
      (cur.reverse ++ P) :: splitLoop [tilde] 0 [] R := by
  intro P
  induction P with
  | nil =>
    intro cur R _
    rw [List.nil_append, splitLoop_tilde_cons, if_pos rfl]
    simp
  | cons c rest ih =>
    intro cur R h
    simp only [List.mem_cons, not_or] at h
    have hc : c ≠ tilde := fun e => h.1 e.symm
    rw [List.cons_append, splitLoop_tilde_cons, if_neg hc, ih _ _ h.2]
    simp

theorem Split_tilde_parts (P R : Bytes) (hP : tilde ∉ P) (hR : tilde ∉ R) :
    Split (P ++ tilde :: R) [tilde] = [P, R] := by
  unfold Split
  rw [splitLoop_tilde_append P [] R hP, splitLoop_tilde_not_mem R [] hR]
  simp

theorem Split_tilde_length (s : Bytes) : (Split s [tilde]).length = s.count tilde + 1 :=
  splitLoop_tilde_length s []

theorem count_tilde_one (s : Bytes) (h : s.count tilde = 1) :
    ∃ P R, s = P ++ tilde :: R ∧ tilde ∉ P ∧ tilde ∉ R := by
  have hmem : tilde ∈ s := List.count_pos_iff.mp (by omega)
  obtain ⟨P, R, hs, hP⟩ := List.eq_append_cons_of_mem hmem
  refine ⟨P, R, hs, hP, ?_⟩
  rw [hs, List.count_append, List.count_cons_self, List.count_eq_zero_of_not_mem hP] at h
  exact List.count_eq_zero.mp (by omega)

theorem count_tilde_parts (P R : Bytes) (hP : tilde ∉ P) (hR : tilde ∉ R) :
    (P ++ tilde :: R).count tilde = 1 := by
  rw [List.count_append, List.count_cons_self, List.count_eq_zero_of_not_mem hP,
    List.count_eq_zero_of_not_mem hR]

/-! ## `createMatcher` and `createReplacer`, case by case -/

theorem createReplacer_count_ne_one (E : RegexpPkg) (spec : Bytes) (g : Globals)
    (h : spec.count tilde ≠ 1) : (createReplacer E spec g).1 = none := by
  unfold createReplacer
  by_cases h1 : spec = []
  · simp [h1]
  · have h2 : (Split spec [tilde]).length ≠ 2 := by
      rw [Split_tilde_length]
      omega
    simp [h1, h2]

theorem createReplacer_parts (E : RegexpPkg) (P R : Bytes) (g : Globals)
    (hP : tilde ∉ P) (hR : tilde ∉ R) :
    (createReplacer E (P ++ tilde :: R) g).1 =
      match E.Compile P with
      | Except.ok re => some { re := re, repl := R }
      | Except.error _ => none := by
  unfold createReplacer
  rw [if_neg (by simp)]
  simp only [Split_tilde_parts P R hP hR, List.length_cons, List.length_nil, ne_eq,
    not_true_eq_false, if_false, List.getD_cons_zero, List.getD_cons_succ]
  cases hcomp : E.Compile P <;> simp

theorem createReplacer_some (E : RegexpPkg) (spec : Bytes) (g : Globals) (r : Replacer E)
    (h : (createReplacer E spec g).1 = some r) :
    ∃ P, spec = P ++ tilde :: r.repl ∧ tilde ∉ P ∧ tilde ∉ r.repl ∧
      E.Compile P = Except.ok r.re := by
  by_cases hc : spec.count tilde = 1
  · obtain ⟨P, R, hs, hP, hR⟩ := count_tilde_one spec hc
    subst hs
    rw [createReplacer_parts E P R g hP hR] at h
    cases hcomp : E.Compile P with
    | error e => rw [hcomp] at h; cases h
    | ok re =>
      rw [hcomp] at h
      simp only [Option.some.injEq] at h
      subst h
      exact ⟨P, rfl, hP, hR, hcomp⟩
  · rw [createReplacer_count_ne_one E spec g hc] at h
    cases h

theorem createMatcher_some (E : RegexpPkg) (pattern : Bytes) (g : Globals) (f : Matcher E)
    (h : (createMatcher E pattern g).1 = some f) :
    pattern ≠ [] ∧ E.Compile pattern = Except.ok f.re := by
  unfold createMatcher at h
  by_cases h1 : pattern = []
  · rw [if_pos h1] at h
    cases h
  · rw [if_neg h1] at h
    refine ⟨h1, ?_⟩
    cases hcomp : E.Compile pattern with
    | error e =>
      rw [hcomp] at h
      cases h
    | ok re =>
      rw [hcomp] at h
      simp only [Option.some.injEq] at h
      subst h
      rfl


theorem uint64Size_eq : uint64Size = 18446744073709551616 := by
  unfold uint64Size
  norm_num

theorem foldl_matchStep : ∀ (ms : List Bytes) (g : Globals) (base : Nat),
    g.matchid = base % uint64Size →
    (ms.foldl matchStep g).matchid = (base + ms.length) % uint64Size ∧
    (ms.foldl matchStep g).connid = g.connid ∧
    (ms.foldl matchStep g).log = g.log ++
      List.zipWith matchEntry ((List.range' (base + 1) ms.length).map (· % uint64Size)) ms := by
  intro ms
  induction ms with
  | nil =>
    intro g base h
    simp [h]
  | cons m rest ih =>
    intro g base h
    have hm : (base % uint64Size + 1) % uint64Size = (base + 1) % uint64Size := by
      rw [uint64Size_eq]
      omega
    have h1 : (matchStep g m).matchid = (base + 1) % uint64Size := by
      simp only [matchStep, Globals.emit, h, hm]
    obtain ⟨ha, hb, hc⟩ := ih (matchStep g m) (base + 1) h1
    simp only [List.foldl_cons, List.length_cons]
    refine ⟨?_, ?_, ?_⟩
    · rw [ha, Nat.add_assoc, Nat.add_comm 1]
    · rw [hb]
      simp [matchStep, Globals.emit]
    · rw [hc, List.range'_succ]
      simp only [List.map_cons, List.zipWith_cons_cons]
      have : (matchStep g m).log = g.log ++ [matchEntry ((base + 1) % uint64Size) m] := by
        simp only [matchStep, Globals.emit, matchEntry, h, hm]
      rw [this]
      simp

theorem Matcher.call_spec {E : RegexpPkg} (f : Matcher E) (C : Bytes) (g : Globals)
    (hg : g.matchid < uint64Size) :
    (f.call C g).matchid = (g.matchid + (FindAll E f.re C (-1)).length) % uint64Size ∧
    (f.call C g).connid = g.connid ∧
    (f.call C g).log = g.log ++
      List.zipWith matchEntry
        ((List.range' (g.matchid + 1) (FindAll E f.re C (-1)).length).map (· % uint64Size))
        (FindAll E f.re C (-1)) := by
  unfold Matcher.call
  exact foldl_matchStep _ g g.matchid (Nat.mod_eq_of_lt hg).symm

theorem map_mod_range' (n k : Nat) (h : n + k < uint64Size) :
    (List.range' (n + 1) k).map (· % uint64Size) = List.range' (n + 1) k := by
  have hall : ∀ x ∈ List.range' (n + 1) k, (fun y => y % uint64Size) x = id x := by
    intro x hx
    rw [List.mem_range'_1] at hx
    exact Nat.mod_eq_of_lt (by omega)
  rw [List.map_congr_left hall, List.map_id]


/-! ## The scenarios, evaluated with the executable engine -/

theorem exec_of_compile (pattern b : Bytes) (pos : Nat) (re : Prog) (r : Option MatchIdx)
    (hre : compileProg pattern = Except.ok re)
    (h : (compileProg pattern).toOption.map (fun p => p.exec b pos) = some r) :
    goRegexp.doExecute re b pos = r := by
  rw [hre] at h
  simpa [Except.toOption] using h

theorem allMatches_get (re : Prog) (hre : compileProg (bytes "GET .*") = Except.ok re) :
    allMatches goRegexp re (bytes "GET /\r\n") (-1) = [{ lo := 0, hi := 6, groups := [] }] := by
  have h0 := exec_of_compile (bytes "GET .*") (bytes "GET /\r\n") 0 re
    (some { lo := 0, hi := 6, groups := [] }) hre (by decide)
  have h6 := exec_of_compile (bytes "GET .*") (bytes "GET /\r\n") 6 re none hre (by decide)
  have hl : (bytes "GET /\r\n").length = 7 := by decide
  unfold allMatches
  rw [allMatchesLoop_some _ _ _ _ _ _ _ _ (by simp) (by simp) h0]
  simp only [nextPos]
  simp
  rw [allMatchesLoop_none _ _ _ _ _ _ _ h6]


/-! ## The listener loop -/

theorem acceptStep_error (E : RegexpPkg) (fl : Flags) (laddr raddr : TCPAddr)
    (matcher : Option (Matcher E)) (replacer : Option (Replacer E)) (s : Process E)
    (err : String) :
    (acceptStep E fl laddr raddr matcher replacer s (Except.error err)).status = s.status ∧
    (acceptStep E fl laddr raddr matcher replacer s (Except.error err)).globals.connid
      = s.globals.connid ∧
    (acceptStep E fl laddr raddr matcher replacer s (Except.error err)).spawned = s.spawned ∧
    (acceptStep E fl laddr raddr matcher replacer s (Except.error err)).acceptCalls
      = s.acceptCalls + 1 := by
  simp [acceptStep, Globals.emit]

theorem acceptStep_ok (E : RegexpPkg) (fl : Flags) (laddr raddr : TCPAddr)
    (matcher : Option (Matcher E)) (replacer : Option (Replacer E)) (s : Process E)
    (conn : TCPConn) :
    (acceptStep E fl laddr raddr matcher replacer s (Except.ok conn)).status = s.status ∧
    (acceptStep E fl laddr raddr matcher replacer s (Except.ok conn)).globals.connid
      = (s.globals.connid + 1) % uint64Size ∧
    (acceptStep E fl laddr raddr matcher replacer s (Except.ok conn)).acceptCalls
      = s.acceptCalls + 1 ∧
    ∃ p : Proxy E,
      (acceptStep E fl laddr raddr matcher replacer s (Except.ok conn)).spawned
        = s.spawned ++ [p] ∧
      p.ident = some ((s.globals.connid + 1) % uint64Size) ∧
      p.lconn = conn ∧
      p.Log = some
        { Verbose := fl.verbose, VeryVerbose := fl.veryverbose,
          Prefix := { format := "Connection #%s-%03d ",
                      args := [Arg.str conn.remote,
                        Arg.uint ((s.globals.connid + 1) % uint64Size)] },
          Color := fl.colors } := by
  by_cases h : fl.unwrapTLS
  · simp [acceptStep, Globals.emit, h, Proxy.ident, Proxy.NewTLSUnwrapped, Proxy.New]
  · simp [acceptStep, Globals.emit, h, Proxy.ident, Proxy.New]

theorem acceptLoop_spec (E : RegexpPkg) (fl : Flags) (laddr raddr : TCPAddr)
    (matcher : Option (Matcher E)) (replacer : Option (Replacer E)) :
    ∀ (accepts : List (Except String TCPConn)) (s : Process E) (base : Nat),
      s.globals.connid = base % uint64Size →
      (acceptLoop E fl laddr raddr matcher replacer s accepts).status = s.status ∧
      (acceptLoop E fl laddr raddr matcher replacer s accepts).acceptCalls
        = s.acceptCalls + accepts.length ∧
      (acceptLoop E fl laddr raddr matcher replacer s accepts).globals.connid
        = (base + (okConns accepts).length) % uint64Size ∧
      (acceptLoop E fl laddr raddr matcher replacer s accepts).spawned.map Proxy.ident
        = s.spawned.map Proxy.ident ++
          ((List.range' (base + 1) (okConns accepts).length).map (· % uint64Size)).map some ∧
      (acceptLoop E fl laddr raddr matcher replacer s accepts).spawned.map Proxy.lconn
        = s.spawned.map Proxy.lconn ++ okConns accepts ∧
      (∀ p ∈ (acceptLoop E fl laddr raddr matcher replacer s accepts).spawned,
        p ∈ s.spawned ∨ ∃ l, p.Log = some l ∧ l.Verbose = fl.verbose ∧
          l.VeryVerbose = fl.veryverbose) := by
  intro accepts
  induction accepts with
  | nil =>
    intro s base h
    refine ⟨rfl, rfl, ?_, ?_, ?_, ?_⟩
    · simp [acceptLoop, okConns, h]
    · simp [acceptLoop, okConns]
    · simp [acceptLoop, okConns]
    · intro p hp
      exact Or.inl hp
  | cons ev rest ih =>
    intro s base h
    have hloop : acceptLoop E fl laddr raddr matcher replacer s (ev :: rest) =
        acceptLoop E fl laddr raddr matcher replacer
          (acceptStep E fl laddr raddr matcher replacer s ev) rest := by
      simp [acceptLoop]
    rw [hloop]
    cases ev with
    | error err =>
      obtain ⟨h1, h2, h3, h4⟩ := acceptStep_error E fl laddr raddr matcher replacer s err
      obtain ⟨i1, i2, i3, i4, i5, i6⟩ := ih _ base (h2.trans h)
      refine ⟨i1.trans h1, ?_, ?_, ?_, ?_, ?_⟩
      · rw [i2, h4, List.length_cons]
        omega
      · rw [i3]
        simp [okConns]
      · rw [i4, h3]
        simp [okConns]
      · rw [i5, h3]
        simp [okConns]
      · intro p hp
        rw [← h3]
        exact i6 p hp
    | ok conn =>
      obtain ⟨h1, h2, h4, p, h3, hid, hconn, hlog⟩ :=
        acceptStep_ok E fl laddr raddr matcher replacer s conn
      have hm : (base % uint64Size + 1) % uint64Size = (base + 1) % uint64Size := by
        rw [uint64Size_eq]
        omega
      rw [h] at h2 hid
      rw [hm] at h2 hid
      obtain ⟨i1, i2, i3, i4, i5, i6⟩ := ih _ (base + 1) h2
      refine ⟨i1.trans h1, ?_, ?_, ?_, ?_, ?_⟩
      · rw [i2, h4, List.length_cons]
        omega
      · rw [i3]
        simp only [okConns, List.length_cons]
        congr 1
        omega
      · rw [i4, h3]
        simp only [okConns, List.length_cons, List.map_append, List.map_cons, List.map_nil,
          hid, List.range'_succ, List.append_assoc, List.singleton_append]
      · rw [i5, h3]
        simp [okConns, hconn]
      · intro q hq
        rcases i6 q hq with hq1 | hq1
        · rw [h3, List.mem_append, List.mem_singleton] at hq1
          rcases hq1 with hq1 | hq1
          · exact Or.inl hq1
          · subst hq1
            exact Or.inr ⟨_, hlog, rfl, rfl⟩
        · exact Or.inr hq1

theorem createMatcher_connid (E : RegexpPkg) (pattern : Bytes) (g : Globals) :
    (createMatcher E pattern g).2.connid = g.connid := by
  unfold createMatcher
  split_ifs
  · rfl
  · cases E.Compile pattern <;> rfl

theorem createReplacer_connid (E : RegexpPkg) (spec : Bytes) (g : Globals) :
    (createReplacer E spec g).2.connid = g.connid := by
  unfold createReplacer
  simp only
  split_ifs
  · rfl
  · rfl
  · cases E.Compile ((Split spec [tilde]).getD 0 []) <;> rfl

/-- The state in which `main` enters its loop, when the three calls to package `net`
succeed. -/
theorem main_serving (E : RegexpPkg) (net : Net) (fl : Flags)
    (accepts : List (Except String TCPConn)) (laddr raddr : TCPAddr)
    (h1 : net.ResolveTCPAddr fl.localAddr = Except.ok laddr)
    (h2 : net.ResolveTCPAddr fl.remoteAddr = Except.ok raddr)
    (h3 : net.ListenTCP laddr = Except.ok ()) :
    ∃ (matcher : Option (Matcher E)) (replacer : Option (Replacer E)) (g : Globals),
      g.connid = 0 ∧
      main E net fl accepts =
        acceptLoop E (if fl.veryverbose then { fl with verbose := true } else fl) laddr raddr
          matcher replacer
          { status := Status.serving, globals := g, acceptCalls := 0, spawned := [] }
          accepts := by
  unfold main
  simp only [h1, h2, h3]
  refine ⟨_, _, _, ?_, rfl⟩
  rw [createReplacer_connid, createMatcher_connid]
  rfl


theorem main_cases (E : RegexpPkg) (net : Net) (fl : Flags)
    (accepts : List (Except String TCPConn)) :
    (∃ g, main E net fl accepts = exitWith E g 1) ∨
    (∃ laddr raddr, net.ResolveTCPAddr fl.localAddr = Except.ok laddr ∧
      net.ResolveTCPAddr fl.remoteAddr = Except.ok raddr ∧
      net.ListenTCP laddr = Except.ok ()) := by
  cases h1 : net.ResolveTCPAddr fl.localAddr with
  | error e1 =>
    left
    unfold main
    simp only [h1]
    exact ⟨_, rfl⟩
  | ok laddr =>
    cases h2 : net.ResolveTCPAddr fl.remoteAddr with
    | error e2 =>
      left
      unfold main
      simp only [h1, h2]
      exact ⟨_, rfl⟩
    | ok raddr =>
      cases h3 : net.ListenTCP laddr with
      | error e3 =>
        left
        unfold main
        simp only [h1, h2, h3]
        exact ⟨_, rfl⟩
      | ok u =>
        right
        exact ⟨laddr, raddr, rfl, rfl, h3⟩

theorem compile_ok (pattern : Bytes) (h : (compileProg pattern).toOption.isSome = true) :
    ∃ re, compileProg pattern = Except.ok re := by
  cases hc : compileProg pattern with
  | error e =>
    rw [hc] at h
    simp [Except.toOption] at h
  | ok re => exact ⟨re, rfl⟩

theorem allMatches_foo (re : Prog) (hre : compileProg (bytes "foo") = Except.ok re) :
    allMatches goRegexp re (bytes "foofoobaz") (-1) =
      [{ lo := 0, hi := 3, groups := [] }, { lo := 3, hi := 6, groups := [] }] := by
  have h0 := exec_of_compile (bytes "foo") (bytes "foofoobaz") 0 re
    (some { lo := 0, hi := 3, groups := [] }) hre (by decide)
  have h3 := exec_of_compile (bytes "foo") (bytes "foofoobaz") 3 re
    (some { lo := 3, hi := 6, groups := [] }) hre (by decide)
  have h6 := exec_of_compile (bytes "foo") (bytes "foofoobaz") 6 re none hre (by decide)
  have hl : (bytes "foofoobaz").length = 9 := by decide
  unfold allMatches
  rw [allMatchesLoop_some _ _ _ _ _ _ _ _ (by simp) (by simp) h0]
  simp only [nextPos]
  simp
  rw [allMatchesLoop_some _ _ _ _ _ _ _ _ (by simp [hl]) (by simp [hl]) h3]
  simp only [nextPos]
  simp
  rw [allMatchesLoop_none _ _ _ _ _ _ _ h6]

theorem allMatches_a (re : Prog) (hre : compileProg (bytes "a") = Except.ok re) :
    allMatches goRegexp re (bytes "a") (-1) = [{ lo := 0, hi := 1, groups := [] }] := by
  have h0 := exec_of_compile (bytes "a") (bytes "a") 0 re
    (some { lo := 0, hi := 1, groups := [] }) hre (by decide)
  have h1 := exec_of_compile (bytes "a") (bytes "a") 1 re none hre (by decide)
  have hl : (bytes "a").length = 1 := by decide
  unfold allMatches
  rw [allMatchesLoop_some _ _ _ _ _ _ _ _ (by simp) (by simp) h0]
  simp only [nextPos]
  simp
  rw [allMatchesLoop_none _ _ _ _ _ _ _ h1]

theorem allMatches_eur (re : Prog) (hre : compileProg (bytes "EUR") = Except.ok re) :
    allMatches goRegexp re (bytes "5 EUR") (-1) = [{ lo := 2, hi := 5, groups := [] }] := by
  have h0 := exec_of_compile (bytes "EUR") (bytes "5 EUR") 0 re
    (some { lo := 2, hi := 5, groups := [] }) hre (by decide)
  have h5 := exec_of_compile (bytes "EUR") (bytes "5 EUR") 5 re none hre (by decide)
  have hl : (bytes "5 EUR").length = 5 := by decide
  unfold allMatches
  rw [allMatchesLoop_some _ _ _ _ _ _ _ _ (by simp) (by simp) h0]
  simp only [nextPos]
  simp
  rw [allMatchesLoop_none _ _ _ _ _ _ _ h5]

theorem expandLoop_two_dollars (E : RegexpPkg) (re : E.Regexp) (bsrc : Bytes) (m : MatchIdx) :
    expandLoop E re bsrc m 0 [0x24, 0x24] = [0x24] := by
  simp [expandLoop]

theorem ReplaceAll_foo_dollars (re : Prog) (hre : compileProg (bytes "foo") = Except.ok re) :
    ReplaceAll goRegexp re (bytes "foo") (bytes "$$") = bytes "$" := by
  have h0 := exec_of_compile (bytes "foo") (bytes "foo") 0 re
    (some { lo := 0, hi := 3, groups := [] }) hre (by decide)
  have h3 := exec_of_compile (bytes "foo") (bytes "foo") 3 re none hre (by decide)
  have hl : (bytes "foo").length = 3 := by decide
  have hadv : advance (bytes "foo") 0 3 = 3 := by decide
  unfold ReplaceAll replaceAll
  rw [replaceAllLoop_some _ _ _ _ _ _ _ _ _ (by simp) h0]
  simp only [hadv]
  rw [replaceAllLoop_none _ _ _ _ _ _ _ _ h3]
  have hd : bytes "$$" = [0x24, 0x24] := by decide
  simp only [expand, hd, expandLoop_two_dollars]
  decide


/-! ## The claims -/

/-- C1 (as stated, refuted): with the replace option `foo~$$` the replacer does not
insert the replacement `$$` byte for byte: on the chunk `foo`, whose one occurrence of
the pattern is the whole chunk, it yields `$`, not `$$`. -/
theorem replacer_dollar_not_literal :
    ∃ r : Replacer goRegexp,
      (createReplacer goRegexp (bytes "foo~$$") Globals.init).1 = some r ∧
      r.repl = bytes "$$" ∧
      r.call (bytes "foo") = bytes "$" ∧
      replaceOccurrences (bytes "foo") (bytes "$$")
        (allMatches goRegexp r.re (bytes "foo") (-1)) 0 = bytes "$$" ∧
      r.call (bytes "foo") ≠ replaceOccurrences (bytes "foo") (bytes "$$")
        (allMatches goRegexp r.re (bytes "foo") (-1)) 0 := by
  obtain ⟨re, hre⟩ := compile_ok (bytes "foo") (by decide)
  have hspec : bytes "foo~$$" = bytes "foo" ++ tilde :: bytes "$$" := by decide
  have hcr := createReplacer_parts goRegexp (bytes "foo") (bytes "$$") Globals.init
    (by decide) (by decide)
  have hre2 : goRegexp.Compile (bytes "foo") = Except.ok re := hre
  rw [hre2] at hcr
  have hcall : ReplaceAll goRegexp re (bytes "foo") (bytes "$$") = bytes "$" :=
    ReplaceAll_foo_dollars re hre
  have h0 := exec_of_compile (bytes "foo") (bytes "foo") 0 re
    (some { lo := 0, hi := 3, groups := [] }) hre (by decide)
  have h3 := exec_of_compile (bytes "foo") (bytes "foo") 3 re none hre (by decide)
  have hocc : allMatches goRegexp re (bytes "foo") (-1) = [{ lo := 0, hi := 3, groups := [] }] := by
    unfold allMatches
    rw [allMatchesLoop_some _ _ _ _ _ _ _ _ (by simp) (by simp) h0]
    simp only [nextPos]
    simp
    rw [allMatchesLoop_none _ _ _ _ _ _ _ h3]
  refine ⟨{ re := re, repl := bytes "$$" }, ?_, rfl, hcall, ?_, ?_⟩
  · rw [hspec]
    exact hcr
  · simp only [hocc]
    decide
  · simp only [Replacer.call, hcall, hocc]
    decide

/-- C1 (amended): for every replace option `P~R` that `createReplacer` accepts and
every chunk `C`, the replacer is built from the compiled pattern `P` and maps `C` to `C`
with the successive non-overlapping occurrences of `P` replaced by the expansion of `R`
as a template of `Regexp.Expand`.  Whenever no `$` of `R` is followed by `$`, by a name
or by `{name}` (so whenever `R` holds no `$`, and also when its `$` signs end the text
or stand before other characters), the expansion is `R` itself and `R` is inserted byte
for byte.  The occurrences are the ones the scan of the specification finds, and no
other list; they lie inside `C`, in order, none overlapping another. -/
theorem replacer_replaces_occurrences (E : RegexpPkg) (P R : Bytes) (g : Globals)
    (r : Replacer E) (C : Bytes)
    (hacc : (createReplacer E (P ++ tilde :: R) g).1 = some r) :
    E.Compile P = Except.ok r.re ∧ r.repl = R ∧
    r.call C = replaceOccurrencesBy C (expansion E r.re C R) (allMatches E r.re C (-1)) 0 ∧
    (plainTemplate E R = true →
      (∀ m, expansion E r.re C R m = R) ∧
      r.call C = replaceOccurrences C R (allMatches E r.re C (-1)) 0) ∧
    ((0x24 : UInt8) ∉ R → plainTemplate E R = true) ∧
    (∀ occs, Occurrences E r.re C 0 none occs ↔ occs = allMatches E r.re C (-1)) ∧
    List.Pairwise (fun a c => a.hi ≤ c.lo) (allMatches E r.re C (-1)) ∧
    (∀ m ∈ allMatches E r.re C (-1), m.lo ≤ m.hi ∧ m.hi ≤ C.length) := by
  obtain ⟨P1, hs, hP1, hR1, hc⟩ := createReplacer_some E _ g r hacc
  have hcount := count_tilde_parts P1 r.repl hP1 hR1
  rw [← hs, List.count_append, List.count_cons_self] at hcount
  have hP : tilde ∉ P := List.count_eq_zero.mp (by omega)
  have hRt : tilde ∉ R := List.count_eq_zero.mp (by omega)
  have hparts := Split_tilde_parts P R hP hRt
  rw [hs, Split_tilde_parts P1 r.repl hP1 hR1] at hparts
  simp only [List.cons.injEq, and_true] at hparts
  obtain ⟨hPeq, hReq⟩ := hparts
  subst hPeq
  refine ⟨hc, hReq, ?_, ?_, plainTemplate_no_dollar E R, allMatches_unique E r.re C,
    (allMatches_occurrences E r.re C).1, (allMatches_occurrences E r.re C).2⟩
  · unfold Replacer.call
    rw [hReq]
    exact ReplaceAll_expansion E r.re C R
  · intro hplain
    refine ⟨fun m => expandLoop_plain E r.re C _ R hplain, ?_⟩
    unfold Replacer.call
    rw [hReq]
    exact ReplaceAll_plain E r.re C R hplain

/-- C1 (witness): the option `EUR~US$` is accepted; the `$` of its replacement ends the
text, and the chunk `5 EUR` becomes `5 US$`. -/
theorem replacer_replaces_occurrences_witness :
    ∃ r : Replacer goRegexp,
      (createReplacer goRegexp (bytes "EUR" ++ tilde :: bytes "US$") Globals.init).1 = some r ∧
      plainTemplate goRegexp (bytes "US$") = true ∧
      allMatches goRegexp r.re (bytes "5 EUR") (-1) = [{ lo := 2, hi := 5, groups := [] }] ∧
      r.call (bytes "5 EUR") = replaceOccurrences (bytes "5 EUR") (bytes "US$")
        (allMatches goRegexp r.re (bytes "5 EUR") (-1)) 0 ∧
      r.call (bytes "5 EUR") = bytes "5 US$" := by
  obtain ⟨re, hre⟩ := compile_ok (bytes "EUR") (by decide)
  have hcr := createReplacer_parts goRegexp (bytes "EUR") (bytes "US$") Globals.init
    (by decide) (by decide)
  have hre2 : goRegexp.Compile (bytes "EUR") = Except.ok re := hre
  rw [hre2] at hcr
  have hplain : plainTemplate goRegexp (bytes "US$") = true := by decide
  have hocc := allMatches_eur re hre
  have hcall := ((replacer_replaces_occurrences goRegexp (bytes "EUR") (bytes "US$")
    Globals.init { re := re, repl := bytes "US$" } (bytes "5 EUR") hcr).2.2.2.1 hplain).2
  refine ⟨{ re := re, repl := bytes "US$" }, hcr, hplain, hocc, hcall, ?_⟩
  rw [hcall]
  simp only [hocc]
  decide

/-- C2 (as stated, refuted): from the starting value `2 ^ 64 - 1` of the counter, one
match of the pattern `a` in the chunk `a` leaves the counter at `0`, not at
`2 ^ 64`, and the entry carries the number `0`, which is below the starting value. -/
theorem matcher_counter_wraps :
    ∃ f : Matcher goRegexp,
      (createMatcher goRegexp (bytes "a") Globals.init).1 = some f ∧
      (FindAll goRegexp f.re (bytes "a") (-1)).length = 1 ∧
      (f.call (bytes "a") { matchid := 2 ^ 64 - 1, connid := 0, log := [] }).matchid = 0 ∧
      (f.call (bytes "a") { matchid := 2 ^ 64 - 1, connid := 0, log := [] }).matchid
        ≠ (2 ^ 64 - 1) + 1 ∧
      (f.call (bytes "a") { matchid := 2 ^ 64 - 1, connid := 0, log := [] }).log
        = [matchEntry 0 (bytes "a")] := by
  obtain ⟨re, hre⟩ := compile_ok (bytes "a") (by decide)
  have hre2 : goRegexp.Compile (bytes "a") = Except.ok re := hre
  have hcm : (createMatcher goRegexp (bytes "a") Globals.init).1 = some { re := re } := by
    unfold createMatcher
    rw [if_neg (by decide), hre2]
  have hfind : FindAll goRegexp re (bytes "a") (-1) = [bytes "a"] := by
    unfold FindAll
    rw [allMatches_a re hre]
    decide
  refine ⟨{ re := re }, hcm, ?_, ?_, ?_, ?_⟩
  · rw [hfind]
    rfl
  · simp only [Matcher.call, hfind]
    decide
  · simp only [Matcher.call, hfind]
    decide
  · simp only [Matcher.call, hfind]
    decide

/-- C2 (amended): for every match pattern that `createMatcher` accepts, every chunk `C`
and every starting value `n` of the counter (a `uint64`), the matcher is built from the
compiled pattern, and a call of it on `C` appends exactly `k` entries to the log, `k`
being the number of successive non-overlapping occurrences of the pattern in `C`: the
occurrences are the ones the scan of the specification finds, and no other list; they
lie inside `C`, in order, none overlapping another.  The call leaves the counter at
`(n + k) mod 2 ^ 64` and the connection counter as it was; the `i`-th entry carries the
number `n + i` reduced modulo `2 ^ 64` and the text of the `i`-th occurrence.  When
`n + k < 2 ^ 64` the counter is left at `n + k` and the numbers are `n + 1, ..., n + k`,
strictly increasing. -/
theorem matcher_numbers_matches (E : RegexpPkg) (pattern : Bytes) (g0 : Globals)
    (f : Matcher E) (C : Bytes) (g : Globals)
    (hacc : (createMatcher E pattern g0).1 = some f)
    (hn : g.matchid < uint64Size) :
    E.Compile pattern = Except.ok f.re ∧
    (∀ occs, Occurrences E f.re C 0 none occs ↔ occs = allMatches E f.re C (-1)) ∧
    List.Pairwise (fun a c => a.hi ≤ c.lo) (allMatches E f.re C (-1)) ∧
    (∀ m ∈ allMatches E f.re C (-1), m.lo ≤ m.hi ∧ m.hi ≤ C.length) ∧
    FindAll E f.re C (-1) = (allMatches E f.re C (-1)).map (fun m => slice C m.lo m.hi) ∧
    (f.call C g).log.length = g.log.length + (allMatches E f.re C (-1)).length ∧
    (f.call C g).matchid = (g.matchid + (allMatches E f.re C (-1)).length) % uint64Size ∧
    (f.call C g).connid = g.connid ∧
    (f.call C g).log = g.log ++
      List.zipWith matchEntry
        ((List.range' (g.matchid + 1) (allMatches E f.re C (-1)).length).map
          (· % uint64Size))
        ((allMatches E f.re C (-1)).map (fun m => slice C m.lo m.hi)) ∧
    (g.matchid + (allMatches E f.re C (-1)).length < uint64Size →
      (f.call C g).matchid = g.matchid + (allMatches E f.re C (-1)).length ∧
      (f.call C g).log = g.log ++
        List.zipWith matchEntry
          (List.range' (g.matchid + 1) (allMatches E f.re C (-1)).length)
          ((allMatches E f.re C (-1)).map (fun m => slice C m.lo m.hi)) ∧
      List.Pairwise (· < ·)
        (List.range' (g.matchid + 1) (allMatches E f.re C (-1)).length)) := by
  obtain ⟨_, hc⟩ := createMatcher_some E pattern g0 f hacc
  obtain ⟨h1, h2, h3⟩ := Matcher.call_spec f C g hn
  have hfind : FindAll E f.re C (-1)
      = (allMatches E f.re C (-1)).map (fun m => slice C m.lo m.hi) := rfl
  have hlen : (FindAll E f.re C (-1)).length = (allMatches E f.re C (-1)).length := by
    rw [hfind, List.length_map]
  rw [hlen] at h1 h3
  rw [hfind] at h3
  refine ⟨hc, allMatches_unique E f.re C, (allMatches_occurrences E f.re C).1,
    (allMatches_occurrences E f.re C).2, hfind, ?_, h1, h2, h3, ?_⟩
  · rw [h3]
    simp
  · intro hlt
    refine ⟨?_, ?_, List.pairwise_lt_range' _ _⟩
    · rw [h1]
      exact Nat.mod_eq_of_lt hlt
    · rw [h3, map_mod_range' _ _ hlt]

/-- C2 (witness): the pattern `GET .*` is accepted and the counter `0` is a `uint64`;
the chunk `GET /\r\n` holds one occurrence, bytes `0` to `6`, the call writes one entry
and leaves the counter at `1`. -/
theorem matcher_numbers_matches_witness :
    ∃ f : Matcher goRegexp,
      (createMatcher goRegexp (bytes "GET .*") Globals.init).1 = some f ∧
      Globals.init.matchid < uint64Size ∧
      allMatches goRegexp f.re (bytes "GET /\r\n") (-1) = [{ lo := 0, hi := 6, groups := [] }] ∧
      Occurrences goRegexp f.re (bytes "GET /\r\n") 0 none [{ lo := 0, hi := 6, groups := [] }] ∧
      (f.call (bytes "GET /\r\n") Globals.init).log.length = 1 ∧
      (f.call (bytes "GET /\r\n") Globals.init).matchid = 1 := by
  obtain ⟨re, hre⟩ := compile_ok (bytes "GET .*") (by decide)
  have hre2 : goRegexp.Compile (bytes "GET .*") = Except.ok re := hre
  have hcm : (createMatcher goRegexp (bytes "GET .*") Globals.init).1 = some { re := re } := by
    unfold createMatcher
    rw [if_neg (by decide), hre2]
  have hlt : Globals.init.matchid < uint64Size := by decide
  have hocc := allMatches_get re hre
  have hthm := matcher_numbers_matches goRegexp (bytes "GET .*") Globals.init { re := re }
    (bytes "GET /\r\n") Globals.init hcm hlt
  refine ⟨{ re := re }, hcm, hlt, hocc, (hthm.2.1 _).mpr hocc.symm, ?_, ?_⟩
  · have h := hthm.2.2.2.2.2.1
    rw [hocc] at h
    exact h
  · have h := hthm.2.2.2.2.2.2.1
    rw [hocc] at h
    rw [h]
    decide

/-- C3 (as stated, refuted): with the match pattern `GET .*` and the counter at `0`,
the matcher on the chunk `GET /\r\n` does not report the text `GET /`. -/
theorem matcher_get_not_without_cr :
    ∃ f : Matcher goRegexp,
      (createMatcher goRegexp (bytes "GET .*") Globals.init).1 = some f ∧
      (f.call (bytes "GET /\r\n") { matchid := 0, connid := 0, log := [] }).log
        ≠ [matchEntry 1 (bytes "GET /")] := by
  obtain ⟨re, hre⟩ := compile_ok (bytes "GET .*") (by decide)
  have hre2 : goRegexp.Compile (bytes "GET .*") = Except.ok re := hre
  have hcm : (createMatcher goRegexp (bytes "GET .*") Globals.init).1 = some { re := re } := by
    unfold createMatcher
    rw [if_neg (by decide), hre2]
  have hfind : FindAll goRegexp re (bytes "GET /\r\n") (-1) = [bytes "GET /\r"] := by
    unfold FindAll
    rw [allMatches_get re hre]
    decide
  refine ⟨{ re := re }, hcm, ?_⟩
  simp only [Matcher.call, hfind]
  decide

/-- C3 (amended): with the match pattern `GET .*` and the counter at `0`, the matcher
built by `createMatcher` on the chunk `GET /\r\n` reports exactly one match, with the
number `1` and the text `GET /\r` (the `.` of the pattern matches the carriage return
and stops at the line feed), and leaves the counter at `1`. -/
theorem matcher_get_reports_one_match (connid : Nat) (log : List LogEntry) :
    ∃ f : Matcher goRegexp,
      (createMatcher goRegexp (bytes "GET .*") Globals.init).1 = some f ∧
      FindAll goRegexp f.re (bytes "GET /\r\n") (-1) = [bytes "GET /\r"] ∧
      f.call (bytes "GET /\r\n") { matchid := 0, connid := connid, log := log } =
        { matchid := 1, connid := connid, log := log ++ [matchEntry 1 (bytes "GET /\r")] } := by
  obtain ⟨re, hre⟩ := compile_ok (bytes "GET .*") (by decide)
  have hre2 : goRegexp.Compile (bytes "GET .*") = Except.ok re := hre
  have hcm : (createMatcher goRegexp (bytes "GET .*") Globals.init).1 = some { re := re } := by
    unfold createMatcher
    rw [if_neg (by decide), hre2]
  have hfind : FindAll goRegexp re (bytes "GET /\r\n") (-1) = [bytes "GET /\r"] := by
    unfold FindAll
    rw [allMatches_get re hre]
    decide
  refine ⟨{ re := re }, hcm, hfind, ?_⟩
  simp only [Matcher.call, hfind]
  simp [matchStep, Globals.emit, matchEntry, uint64Size_eq]

/-- C4: with the replace option `foo~bar`, `createReplacer` returns a replacer, and the
replacer maps the chunk `foofoobaz` to `barbarbaz`. -/
theorem replacer_foo_bar (g : Globals) :
    ∃ r : Replacer goRegexp,
      (createReplacer goRegexp (bytes "foo~bar") g).1 = some r ∧
      r.call (bytes "foofoobaz") = bytes "barbarbaz" := by
  obtain ⟨re, hre⟩ := compile_ok (bytes "foo") (by decide)
  have hspec : bytes "foo~bar" = bytes "foo" ++ tilde :: bytes "bar" := by decide
  have hcr := createReplacer_parts goRegexp (bytes "foo") (bytes "bar") g
    (by decide) (by decide)
  have hre2 : goRegexp.Compile (bytes "foo") = Except.ok re := hre
  rw [hre2] at hcr
  refine ⟨{ re := re, repl := bytes "bar" }, ?_, ?_⟩
  · rw [hspec]
    exact hcr
  · show ReplaceAll goRegexp re (bytes "foofoobaz") (bytes "bar") = bytes "barbarbaz"
    rw [ReplaceAll_literal goRegexp re _ _ (by decide), allMatches_foo re hre]
    decide


/-- C5: a replace option in which the number of `~` is not exactly one (so every
option with a `~` inside its pattern part, and every option with no `~`) gets no
replacer, and a non-empty one is logged as invalid; and whenever `createReplacer` does
return a replacer, neither the pattern it compiled nor the replacement holds a `~`. -/
theorem replacer_needs_one_tilde (E : RegexpPkg) (spec : Bytes) (g : Globals)
    (h : spec.count tilde ≠ 1) :
    (createReplacer E spec g).1 = none ∧
    (spec ≠ [] →
      (createReplacer E spec g).2 = g.emit LogFn.Warnf [Arg.str "Invalid replace option"]) ∧
    (∀ (P R : Bytes), tilde ∈ P → (createReplacer E (P ++ tilde :: R) g).1 = none) ∧
    (∀ (s : Bytes), tilde ∉ s → (createReplacer E s g).1 = none) ∧
    (∀ (s : Bytes) (r : Replacer E), (createReplacer E s g).1 = some r →
      ∃ P, s = P ++ tilde :: r.repl ∧ tilde ∉ P ∧ tilde ∉ r.repl ∧
        E.Compile P = Except.ok r.re) := by
  refine ⟨createReplacer_count_ne_one E spec g h, ?_, ?_, ?_, ?_⟩
  · intro hne
    have h2 : (Split spec [tilde]).length ≠ 2 := by
      rw [Split_tilde_length]
      omega
    unfold createReplacer
    simp [hne, h2]
  · intro P R hP
    apply createReplacer_count_ne_one
    rw [List.count_append, List.count_cons_self]
    have := List.count_pos_iff.mpr hP
    omega
  · intro s hs
    apply createReplacer_count_ne_one
    rw [List.count_eq_zero_of_not_mem hs]
    omega
  · intro s r hr
    exact createReplacer_some E s g r hr

/-- C5 (witness): the option `a~b~c` holds two `~`. -/
theorem replacer_needs_one_tilde_witness :
    (bytes "a~b~c").count tilde ≠ 1 ∧
    (createReplacer goRegexp (bytes "a~b~c") Globals.init).1 = none :=
  ⟨by decide, (replacer_needs_one_tilde goRegexp (bytes "a~b~c") Globals.init (by decide)).1⟩

/-- C6: a match pattern that does not compile gets no matcher, and a replace option
`P~R` whose pattern `P` does not compile gets no replacer; in both cases the function
returns, having logged one warning when the option was well formed, and `main` goes on
to serve.  In particular the option `(unterminated~x` gets no replacer. -/
theorem invalid_pattern_disables (E : RegexpPkg) (g : Globals) :
    (∀ (pattern : Bytes) (err : String), E.Compile pattern = Except.error err →
      (createMatcher E pattern g).1 = none ∧
      (pattern ≠ [] → (createMatcher E pattern g).2
        = g.emit LogFn.Warnf [Arg.str "Invalid match regex: %s", Arg.str err])) ∧
    (∀ (P R : Bytes) (err : String), E.Compile P = Except.error err →
      (createReplacer E (P ++ tilde :: R) g).1 = none ∧
      (tilde ∉ P → tilde ∉ R → (createReplacer E (P ++ tilde :: R) g).2
        = g.emit LogFn.Warnf [Arg.str "Invalid replace regex: %s", Arg.str err])) ∧
    (∀ (net : Net) (fl : Flags) (accepts : List (Except String TCPConn)) (laddr raddr : TCPAddr),
      net.ResolveTCPAddr fl.localAddr = Except.ok laddr →
      net.ResolveTCPAddr fl.remoteAddr = Except.ok raddr →
      net.ListenTCP laddr = Except.ok () →
      (main E net fl accepts).status = Status.serving) ∧
    (∃ err, compileProg (bytes "(unterminated") = Except.error err) ∧
    (createReplacer goRegexp (bytes "(unterminated~x") g).1 = none := by
  refine ⟨?_, ?_, ?_, ?_, ?_⟩
  · intro pattern err hc
    unfold createMatcher
    by_cases hp : pattern = []
    · simp [hp]
    · simp [hp, hc]
  · intro P R err hc
    constructor
    · by_cases hcount : (P ++ tilde :: R).count tilde = 1
      · rw [List.count_append, List.count_cons_self] at hcount
        have hP : tilde ∉ P := List.count_eq_zero.mp (by omega)
        have hR : tilde ∉ R := List.count_eq_zero.mp (by omega)
        rw [createReplacer_parts E P R g hP hR, hc]
      · exact createReplacer_count_ne_one E _ g hcount
    · intro hP hR
      unfold createReplacer
      simp [Split_tilde_parts P R hP hR, hc]
  · intro net fl accepts laddr raddr h1 h2 h3
    obtain ⟨matcher, replacer, g1, _, hmain⟩ :=
      main_serving E net fl accepts laddr raddr h1 h2 h3
    rw [hmain]
    exact (acceptLoop_spec E _ laddr raddr matcher replacer accepts _ 0 (by simpa)).1
  · exact ⟨"missing closing )", by rfl⟩
  · have hspec : bytes "(unterminated~x" = bytes "(unterminated" ++ tilde :: bytes "x" := by
      decide
    have hc : goRegexp.Compile (bytes "(unterminated") = Except.error "missing closing )" := by
      show compileProg (bytes "(unterminated") = Except.error "missing closing )"
      rfl
    rw [hspec, createReplacer_parts goRegexp _ _ g (by decide) (by decide), hc]


/-- C7: in the loop of `main`, a failed accept leaves the connection counter and the
started proxies as they were and the process serving; a successful accept adds one to
the counter (modulo `2 ^ 64`) and starts exactly one proxy, whose identifier is the new
value of the counter.  Hence, over any sequence of accept results, the proxies started
are those of the accepted connections in order, and the `k`-th of them has the identifier
`k` modulo `2 ^ 64`; as long as fewer than `2 ^ 64` connections have been accepted the
identifiers are `1, 2, ..., n`, strictly increasing and pairwise distinct. -/
theorem listener_numbers_connections (E : RegexpPkg) (net : Net) (fl : Flags)
    (accepts : List (Except String TCPConn)) (laddr raddr : TCPAddr)
    (h1 : net.ResolveTCPAddr fl.localAddr = Except.ok laddr)
    (h2 : net.ResolveTCPAddr fl.remoteAddr = Except.ok raddr)
    (h3 : net.ListenTCP laddr = Except.ok ()) :
    (∀ (fl1 : Flags) (matcher : Option (Matcher E)) (replacer : Option (Replacer E))
        (s : Process E) (err : String),
      (acceptStep E fl1 laddr raddr matcher replacer s (Except.error err)).status = s.status ∧
      (acceptStep E fl1 laddr raddr matcher replacer s (Except.error err)).globals.connid
        = s.globals.connid ∧
      (acceptStep E fl1 laddr raddr matcher replacer s (Except.error err)).spawned
        = s.spawned) ∧
    (∀ (fl1 : Flags) (matcher : Option (Matcher E)) (replacer : Option (Replacer E))
        (s : Process E) (conn : TCPConn),
      (acceptStep E fl1 laddr raddr matcher replacer s (Except.ok conn)).status = s.status ∧
      (acceptStep E fl1 laddr raddr matcher replacer s (Except.ok conn)).globals.connid
        = (s.globals.connid + 1) % uint64Size ∧
      ∃ p : Proxy E,
        (acceptStep E fl1 laddr raddr matcher replacer s (Except.ok conn)).spawned
          = s.spawned ++ [p] ∧
        p.lconn = conn ∧
        p.ident = some (acceptStep E fl1 laddr raddr matcher replacer s
          (Except.ok conn)).globals.connid) ∧
    (main E net fl accepts).status = Status.serving ∧
    (main E net fl accepts).acceptCalls = accepts.length ∧
    (main E net fl accepts).globals.connid = (okConns accepts).length % uint64Size ∧
    (main E net fl accepts).spawned.map Proxy.lconn = okConns accepts ∧
    (∀ k, k < (okConns accepts).length →
      ((main E net fl accepts).spawned.map Proxy.ident)[k]?
        = some (some ((k + 1) % uint64Size))) ∧
    ((okConns accepts).length < uint64Size →
      (main E net fl accepts).spawned.map Proxy.ident
        = (List.range' 1 (okConns accepts).length).map some ∧
      List.Pairwise (· < ·) (List.range' 1 (okConns accepts).length) ∧
      (List.range' 1 (okConns accepts).length).Nodup) := by
  obtain ⟨matcher, replacer, g1, hg1, hmain⟩ :=
    main_serving E net fl accepts laddr raddr h1 h2 h3
  obtain ⟨i1, i2, i3, i4, i5, _⟩ :=
    acceptLoop_spec E (if fl.veryverbose then { fl with verbose := true } else fl) laddr raddr
      matcher replacer accepts
      { status := Status.serving, globals := g1, acceptCalls := 0, spawned := [] } 0
      (by simpa using hg1)
  rw [← hmain] at i1 i2 i3 i4 i5
  simp only [Nat.zero_add, List.map_nil, List.nil_append] at i2 i3 i4 i5
  refine ⟨?_, ?_, i1, i2, i3, i5, ?_, ?_⟩
  · intro fl1 matcher1 replacer1 s err
    obtain ⟨a, b, c, _⟩ := acceptStep_error E fl1 laddr raddr matcher1 replacer1 s err
    exact ⟨a, b, c⟩
  · intro fl1 matcher1 replacer1 s conn
    obtain ⟨a, b, _, p, c, d, e, _⟩ := acceptStep_ok E fl1 laddr raddr matcher1 replacer1 s conn
    exact ⟨a, b, p, c, e, by rw [b]; exact d⟩
  · intro k hk
    rw [i4]
    simp only [List.getElem?_map, List.getElem?_range' _ _ hk]
    simp [Nat.add_comm]
  · intro hlt
    refine ⟨?_, List.pairwise_lt_range' _ _, List.nodup_range' _ _⟩
    rw [i4]
    have := map_mod_range' 0 (okConns accepts).length (by omega)
    simp only [Nat.zero_add] at this
    rw [this]

/-- C7 (witness): on the network where every call succeeds, three accept results of
which the second is a failure start two proxies, numbered `1` and `2`. -/
theorem listener_numbers_connections_witness :
    demoNet.ResolveTCPAddr demoFlags.localAddr = Except.ok { addr := ":9999" } ∧
    demoNet.ResolveTCPAddr demoFlags.remoteAddr = Except.ok { addr := "localhost:80" } ∧
    demoNet.ListenTCP { addr := ":9999" } = Except.ok () ∧
    (main goRegexp demoNet demoFlags demoAccepts).globals.connid
      = (okConns demoAccepts).length % uint64Size ∧
    (main goRegexp demoNet demoFlags demoAccepts).spawned.map Proxy.lconn
      = okConns demoAccepts :=
  ⟨rfl, rfl, rfl,
    (listener_numbers_connections goRegexp demoNet demoFlags demoAccepts
      { addr := ":9999" } { addr := "localhost:80" } rfl rfl rfl).2.2.2.2.1,
    (listener_numbers_connections goRegexp demoNet demoFlags demoAccepts
      { addr := ":9999" } { addr := "localhost:80" } rfl rfl rfl).2.2.2.2.2.1⟩

/-- C8: if resolving the local address, resolving the remote address or opening the
local port fails, `main` exits with status `1` having made no call of `AcceptTCP` and
started no proxy; and once these three calls have succeeded the process is serving
after any sequence of accept results, failures included, whatever the match and
replace options are, every one of these results having been consumed by the loop. -/
theorem main_exits_only_at_startup (E : RegexpPkg) (net : Net) (fl : Flags)
    (accepts : List (Except String TCPConn)) :
    (∀ err, net.ResolveTCPAddr fl.localAddr = Except.error err →
      (main E net fl accepts).status = Status.exited 1 ∧
      (main E net fl accepts).acceptCalls = 0 ∧ (main E net fl accepts).spawned = []) ∧
    (∀ laddr err, net.ResolveTCPAddr fl.localAddr = Except.ok laddr →
      net.ResolveTCPAddr fl.remoteAddr = Except.error err →
      (main E net fl accepts).status = Status.exited 1 ∧
      (main E net fl accepts).acceptCalls = 0 ∧ (main E net fl accepts).spawned = []) ∧
    (∀ laddr raddr err, net.ResolveTCPAddr fl.localAddr = Except.ok laddr →
      net.ResolveTCPAddr fl.remoteAddr = Except.ok raddr →
      net.ListenTCP laddr = Except.error err →
      (main E net fl accepts).status = Status.exited 1 ∧
      (main E net fl accepts).acceptCalls = 0 ∧ (main E net fl accepts).spawned = []) ∧
    (∀ laddr raddr, net.ResolveTCPAddr fl.localAddr = Except.ok laddr →
      net.ResolveTCPAddr fl.remoteAddr = Except.ok raddr →
      net.ListenTCP laddr = Except.ok () →
      (main E net fl accepts).status = Status.serving ∧
      (main E net fl accepts).acceptCalls = accepts.length) := by
  refine ⟨?_, ?_, ?_, ?_⟩
  · intro err h1
    unfold main
    simp only [h1]
    exact ⟨rfl, rfl, rfl⟩
  · intro laddr err h1 h2
    unfold main
    simp only [h1, h2]
    exact ⟨rfl, rfl, rfl⟩
  · intro laddr raddr err h1 h2 h3
    unfold main
    simp only [h1, h2, h3]
    exact ⟨rfl, rfl, rfl⟩
  · intro laddr raddr h1 h2 h3
    obtain ⟨matcher, replacer, g1, hg1, hmain⟩ :=
      main_serving E net fl accepts laddr raddr h1 h2 h3
    obtain ⟨i1, i2, _⟩ :=
      acceptLoop_spec E (if fl.veryverbose then { fl with verbose := true } else fl) laddr raddr
        matcher replacer accepts
        { status := Status.serving, globals := g1, acceptCalls := 0, spawned := [] } 0
        (by simpa using hg1)
    rw [← hmain] at i1 i2
    exact ⟨i1, by simpa using i2⟩

/-- C8 (witness): a network whose local address does not resolve makes `main` exit
with status `1`, and the network where every call succeeds leaves it serving. -/
theorem main_exits_only_at_startup_witness :
    (main goRegexp { demoNet with ResolveTCPAddr := fun _ => Except.error "no such host" }
      demoFlags demoAccepts).status = Status.exited 1 ∧
    (main goRegexp demoNet demoFlags demoAccepts).status = Status.serving :=
  ⟨((main_exits_only_at_startup goRegexp
      { demoNet with ResolveTCPAddr := fun _ => Except.error "no such host" }
      demoFlags demoAccepts).1 "no such host" rfl).1,
    ((main_exits_only_at_startup goRegexp demoNet demoFlags demoAccepts).2.2.2
      { addr := ":9999" } { addr := "localhost:80" } rfl rfl rfl).1⟩

/-- C10: every proxy that `main` starts has a logger in which `VeryVerbose` is the flag
`-vv` and `Verbose` is the flag `-v` or the flag `-vv`; so `VeryVerbose` implies
`Verbose`, and without `-vv` the field `Verbose` is the flag `-v`. -/
theorem logger_veryverbose_implies_verbose (E : RegexpPkg) (net : Net) (fl : Flags)
    (accepts : List (Except String TCPConn)) (p : Proxy E)
    (hp : p ∈ (main E net fl accepts).spawned) :
    ∃ l, p.Log = some l ∧
      l.VeryVerbose = fl.veryverbose ∧
      l.Verbose = (fl.verbose || fl.veryverbose) ∧
      (l.VeryVerbose = true → l.Verbose = true) ∧
      (fl.veryverbose = false → l.Verbose = fl.verbose) := by
  rcases main_cases E net fl accepts with ⟨g, hexit⟩ | ⟨laddr, raddr, h1, h2, h3⟩
  · rw [hexit] at hp
    simp [exitWith] at hp
  · obtain ⟨matcher, replacer, g1, hg1, hmain⟩ :=
      main_serving E net fl accepts laddr raddr h1 h2 h3
    obtain ⟨_, _, _, _, _, i6⟩ :=
      acceptLoop_spec E (if fl.veryverbose then { fl with verbose := true } else fl) laddr raddr
        matcher replacer accepts
        { status := Status.serving, globals := g1, acceptCalls := 0, spawned := [] } 0
        (by simpa using hg1)
    rw [← hmain] at i6
    rcases i6 p hp with hnil | ⟨l, hl, hv, hvv⟩
    · simp at hnil
    · refine ⟨l, hl, ?_⟩
      cases hflag : fl.veryverbose <;> simp [hflag] at hv hvv <;> simp [hv, hvv]

/-- C10 (witness): with `-vv` and without `-v`, the proxy of the first accepted
connection has a logger with both fields set. -/
theorem logger_veryverbose_implies_verbose_witness :
    ∃ p : Proxy goRegexp, p ∈ (main goRegexp demoNet demoFlags demoAccepts).spawned ∧
      ∃ l, p.Log = some l ∧
        l.VeryVerbose = demoFlags.veryverbose ∧
        l.Verbose = (demoFlags.verbose || demoFlags.veryverbose) ∧
        (l.VeryVerbose = true → l.Verbose = true) ∧
        (demoFlags.veryverbose = false → l.Verbose = demoFlags.verbose) := by
  have hne : (main goRegexp demoNet demoFlags demoAccepts).spawned ≠ [] := by
    intro h
    have hlen : (main goRegexp demoNet demoFlags demoAccepts).spawned.length = 2 := by decide
    rw [h] at hlen
    simp at hlen
  obtain ⟨p, hp⟩ := List.exists_mem_of_ne_nil _ hne
  exact ⟨p, hp, logger_veryverbose_implies_verbose goRegexp demoNet demoFlags demoAccepts p hp⟩

end TcpProxy
